import Mathlib

/-!
# mymysh: a shallow embedding of the shell and its command history

The development follows `mymysh.c` and `history.c`.

* A C string is the list of its characters up to the terminating NUL
  (`CStr`). The buffers of `MAXLINE` bytes that the program fills with text
  longer than a token of the line are modelled: `executable` in the search
  of `findExecutable` and `wd` in `cd`; a write past their end is a `fault`.
  The line itself and the texts of the history are lists of any length.
* A NULL-terminated `char **` is the list of its entries before the NULL.
* `int` values are integers. The one place where a number of arbitrary size
  enters the program is the `%d` conversion of `sscanf`: C leaves the value
  stored undefined when the number does not fit an `int`, and the model
  stores what the GNU C library stores where `long` has 64 bits. The
  theorems about a number read from the line are about numbers below `2^31`.
* The operating system is a record of operations over an abstract state
  (`OS σ`): every system or library call whose answer depends on the file
  system or the process table is a field of it.
* A call can end in two abnormal ways (`Result`): `fatal` is a call of
  `errorExit`, `fault` is a step whose behaviour C leaves undefined: the use
  of a NULL pointer where the C library requires a string or a stream, or a
  write past the end of a buffer.
-/

namespace Mymysh

/-- A C string: its characters before the terminating NUL. -/
abbrev CStr := List Char

/-- How a call ends: with a value, in `errorExit` (`fatal`: the shell prints
a diagnostic and exits), or in a `fault` (a NULL pointer handed to a C
library function that requires a string or a stream, or a write past the end
of a buffer). -/
inductive Result (α : Type) where
  | ok (a : α)
  | fatal
  | fault
deriving DecidableEq, Repr

/-! ## Tokenizer (`tokenise`, mymysh.c) -/

/-- Membership of a character in a separator set, as `strspn` and `strcspn`
test it. -/
def inSet (set : CStr) (c : Char) : Bool := decide (c ∈ set)

/-- One call of `strtok` on the string at the saved position `s`: skip the
leading separators (`strspn`); at the end of the string return NULL;
otherwise the token runs to the next separator (`strcspn`), which is
overwritten with NUL, and the saved position moves past it (or stays at the
end of the string). The result is the token, if any, and the new saved
position. -/
def strtok (sep : CStr) (s : CStr) : Option CStr × CStr :=
  match s.dropWhile (inSet sep) with
  | [] => (none, [])
  | c :: cs =>
    (some ((c :: cs).takeWhile (fun x => !inSet sep x)),
     ((c :: cs).dropWhile (fun x => !inSet sep x)).tail)

/-- The loop `while ((next = strtok(NULL, sep)) != NULL) ...`: the tokens
found from the saved position on. Every call that returns a token consumes
at least one character, so the length of the string bounds the number of
iterations; `fuel` is that bound. -/
def strtokLoop (sep : CStr) : Nat → CStr → List CStr
  | 0, _ => []
  | fuel + 1, save =>
    match strtok sep save with
    | (none, _) => []
    | (some t, save') => t :: strtokLoop sep fuel save'

/-- The function `tokenise(str, sep)`. The first pass counts `n` (the first
call of `strtok` is counted whatever it returns) and allocates `n + 1`
slots; the second pass copies the first token with `strdup(next)` without
testing it, which is a fault when there is no token, then the remaining
tokens, then NULL. -/
def tokenise (str sep : CStr) : Result (List CStr) :=
  let n := 1 + (strtokLoop sep str.length (strtok sep str).2).length
  match strtok sep str with
  | (none, _) => .fault
  | (some next, save) =>
    let strings := next :: strtokLoop sep str.length save
    if strings.length + 1 ≤ n + 1 then .ok strings else .fault

/-- The maximal runs of non-separator characters of `s`, in order: split `s`
at every separator character and drop the empty pieces. This is the
specification of the tokenizer, not a translation of the code. -/
def maximalRuns (s sep : CStr) : List CStr :=
  (s.splitOnP (inSet sep)).filter (fun t => !t.isEmpty)

/-! ## Command history (history.c) -/

/-- The constant `MAXHIST`. -/
def MAXHIST : Nat := 20

/-- The struct `HistoryEntry`. -/
structure HistoryEntry where
  seqNumber : Int
  commandLine : CStr
deriving DecidableEq, Repr

/-- The global `CommandHistory`: the entries `commands[0 .. nEntries-1]`,
oldest first; `nEntries` is the length of the list. The array has `MAXHIST`
slots. -/
abbrev HistoryList := List HistoryEntry

/-- The eviction loop of `addToCommandHistory`,
`for (i = 0; i < MAXHIST-1; i++)`: slot `i` has its own sequence number
incremented and receives a copy of the command line of slot `i+1`. Slot
`i+1` is read before the loop reaches it. -/
def evictOldest (h : HistoryList) : HistoryList :=
  List.zipWith
    (fun (e next : HistoryEntry) => { seqNumber := e.seqNumber + 1, commandLine := next.commandLine })
    (h.take (MAXHIST - 1)) h.tail

/-- The function `addToCommandHistory(cmdLine, seqNo)`: when the buffer holds
`MAXHIST` entries the eviction loop runs and `nEntries` drops by one; then
the new entry is written at index `nEntries`. -/
def addToCommandHistory (h : HistoryList) (cmdLine : CStr) (seqNo : Int) : HistoryList :=
  if h.length = MAXHIST then
    evictOldest h ++ [{ seqNumber := seqNo, commandLine := cmdLine }]
  else
    h ++ [{ seqNumber := seqNo, commandLine := cmdLine }]

/-- The function `getCommandFromHistory(cmdNo)`: the command line of the
first entry, in stored order, whose sequence number is `cmdNo`; `none` is
NULL. -/
def getCommandFromHistory : HistoryList → Int → Option CStr
  | [], _ => none
  | e :: es, cmdNo =>
    if e.seqNumber = cmdNo then some e.commandLine else getCommandFromHistory es cmdNo

/-! ## History substitution (main, mymysh.c) -/

/-- The function `isspace` in the C locale. -/
def isspace (c : Char) : Bool :=
  c = ' ' || c = '\t' || c = '\n' || c = '\x0b' || c = '\x0c' || c = '\r'

/-- The function `isdigit`. -/
def isdigit (c : Char) : Bool := decide ('0'.toNat ≤ c.toNat ∧ c.toNat ≤ '9'.toNat)

/-- The value of a run of decimal digits. -/
def digitsValue (ds : CStr) : Nat :=
  ds.foldl (fun acc c => 10 * acc + (c.toNat - '0'.toNat)) 0

/-- Reduction of an integer to a 32-bit two's complement `int`. -/
def wrap32 (v : Int) : Int := (v + 2 ^ 31) % 2 ^ 32 - 2 ^ 31

/-- The smallest value of a `long` of 64 bits. -/
def LONG_MIN : Int := - 2 ^ 63

/-- The largest value of a `long` of 64 bits. -/
def LONG_MAX : Int := 2 ^ 63 - 1

/-- The value that `strtol` returns for a sign and a run of decimal digits
of value `n`: the number, or `LONG_MIN` or `LONG_MAX` when it is out of
range. -/
def strtol (negative : Bool) (n : Nat) : Int :=
  if negative then (if - (n : Int) < LONG_MIN then LONG_MIN else - (n : Int))
  else (if LONG_MAX < (n : Int) then LONG_MAX else (n : Int))

/-- The conversion `%d` of `sscanf` on the input `s`: skip white space, read
an optional sign, then a non-empty run of decimal digits; the rest of the
input is left unread. `none` when no digit is found (matching failure or
end of input). A number that fits an `int` is stored as it is. For a number
that does not, C leaves the value stored undefined; the GNU C library
converts the run with `strtol` and stores the result converted to `int`,
which is what the model stores. -/
def scanInt (s : CStr) : Option Int :=
  let s1 := s.dropWhile isspace
  let negative : Bool := s1.head? = some '-'
  let s2 := if s1.head? = some '-' ∨ s1.head? = some '+' then s1.tail else s1
  let ds := s2.takeWhile isdigit
  if ds = [] then none
  else some (wrap32 (strtol negative (digitsValue ds)))

/-- The call `sscanf(line, "!%d", &seqNo)`: `some v` when it returns 1 and
stores `v`; `none` when it returns 0 or EOF and stores nothing. -/
def sscanfBang (line : CStr) : Option Int :=
  match line with
  | '!' :: rest => scanInt rest
  | _ => none

/-- What the history substitution of `main` does with a line that starts with
an exclamation mark. -/
inductive Substitution where
  /-- The branch that prints "Invalid history substitution". -/
  | invalid
  /-- The branch that prints "No command #seqNo". -/
  | noCommand (seqNo : Int)
  /-- The line is replaced by the text found in the history and echoed. -/
  | replaced (line : CStr)
deriving DecidableEq, Repr

/-- The inner test of the history substitution (lines 112-119): the command
numbered `seqNo` replaces the line when `getCommandFromHistory` finds it. -/
def recallCommand (h : HistoryList) (seqNo : Int) : Substitution :=
  match getCommandFromHistory h seqNo with
  | some text => .replaced text
  | none => .noCommand seqNo

/-- The block `if (line[0] == '!') ...` of `main` (lines 106-125), for a line
whose first character is the exclamation mark; `ln` is the buffer `line`,
and `ln[1]?` is `none` when `line[1]` is the terminating NUL. -/
def historySubstitution (h : HistoryList) (cmdNo : Int) (ln : CStr) : Substitution :=
  let scanned := sscanfBang ln
  if (scanned.isSome || ln[1]? == some '!') && ln[1]? != some ' ' then
    let seqNo : Int :=
      if ln[1]? == some '!' then cmdNo - 1
      else match scanned with
        | some v => v
        | none => 0
    recallCommand h seqNo
  else .invalid

/-- The end of the loop body of `main` (lines 211 and 220) for each line of a
list in turn: `addToCommandHistory(line, cmdNo)`, then `cmdNo++`. -/
def recordLines : HistoryList × Int → List CStr → HistoryList × Int
  | st, [] => st
  | (h, cmdNo), l :: ls => recordLines (addToCommandHistory h l cmdNo, cmdNo + 1) ls

/-- The sequence numbers of a history go up by one from each entry to the
next. -/
def consecutive : HistoryList → Bool
  | [] => true
  | [_] => true
  | a :: b :: rest => (b.seqNumber == a.seqNumber + 1) && consecutive (b :: rest)

/-- A full history whose sequence numbers go up by two: entry `i` has the
number `2 * i` and the text `i` in decimal. -/
def gappedHistory : HistoryList :=
  (List.range 20).map
    (fun (i : Nat) => { seqNumber := 2 * (i : Int), commandLine := Nat.toDigits 10 i })

/-! ## The operating system -/

/-- What the program reads from a `struct stat`: the file-type tests
`S_ISREG` and `S_ISDIR` on `st_mode`, the owner and group, and the three
execute bits `S_IXUSR`, `S_IXGRP`, `S_IXOTH` of `st_mode`. -/
structure Stat where
  isReg : Bool
  isDir : Bool
  st_uid : Nat
  st_gid : Nat
  xusr : Bool
  xgrp : Bool
  xoth : Bool
deriving DecidableEq, Repr

/-- The value of a `FILE *` variable. -/
inductive FilePtr where
  /-- Not assigned by the call. -/
  | unset
  /-- NULL: `fopen` failed. -/
  | null
  /-- An open stream on `path`; `write` tells mode "w" from mode "r". -/
  | stream (path : CStr) (write : Bool)
deriving DecidableEq, Repr

/-- The system and library calls of the shell over a state `σ` of the
machine. A call that only inspects the machine returns its answer; a call
that can change it returns the new state, and `none` when it fails.

* `stat s p`: the `struct stat` of `p`, `none` when `stat` fails;
* `accessF`, `accessR`, `accessW`: `access(p, F_OK / R_OK / W_OK) != -1`;
* `getcwd s`: the result of `getcwd(wd, MAXLINE)`, `none` for NULL;
* `getenvHOME s`: `getenv("HOME")`, `none` for NULL;
* `fopenR s p`: whether `fopen(p, "r")` returns a stream;
* `fopenW s p`: `fopen(p, "w")`, which on success has created or truncated
  `p` and leaves the machine in the returned state;
* `chdir s p`: the state after a successful `chdir(p)`;
* `glob s pat`: the path names `glob(pat, GLOB_NOCHECK | GLOB_TILDE, ...)`
  stores, `none` when it returns non-zero;
* `spawn s exe argv redirect fp`: `pipe`, `fork`, the child (which sets up
  its redirection and calls `execve(exe, argv, envp)`) and the parent
  (which feeds the pipe, closes the stream and waits), up to the return of
  `wait`; `none` when `pipe` or `fork` fails. -/
structure OS (σ : Type) where
  stat : σ → CStr → Option Stat
  accessF : σ → CStr → Bool
  accessR : σ → CStr → Bool
  accessW : σ → CStr → Bool
  getuid : σ → Nat
  getgid : σ → Nat
  getcwd : σ → Option CStr
  getenvHOME : σ → Option CStr
  fopenR : σ → CStr → Bool
  fopenW : σ → CStr → Option σ
  chdir : σ → CStr → Option σ
  glob : σ → CStr → Option (List CStr)
  spawn : σ → CStr → List CStr → Int → FilePtr → Option σ

section Shell

variable {σ : Type}

/-- The function `pathExists`. -/
def pathExists (os : OS σ) (s : σ) (path : CStr) : Bool := os.accessF s path

/-- The function `isDir`: 0 when `stat` fails, `S_ISDIR(s.st_mode)` otherwise. -/
def isDir (os : OS σ) (s : σ) (path : CStr) : Bool :=
  match os.stat s path with
  | none => false
  | some st => st.isDir

/-- The function `readPerm`. -/
def readPerm (os : OS σ) (s : σ) (path : CStr) : Bool := os.accessR s path

/-- The function `writePerm`. -/
def writePerm (os : OS σ) (s : σ) (path : CStr) : Bool := os.accessW s path

/-- The diagnostics of the redirection resolver. -/
inductive Diag where
  /-- "Invalid i/o redirection" -/
  | invalidRedirection
  /-- "Input redirection: No such file or directory" -/
  | inputNoSuchFile
  /-- "Input redirection: Permission denied" -/
  | inputPermissionDenied
  /-- "Output redirection: Is a directory" -/
  | outputIsADirectory
  /-- "Output redirection: Permission denied" -/
  | outputPermissionDenied
  /-- "Output redirection: No such file or directory" -/
  | outputNoSuchFile
deriving DecidableEq, Repr

/-- The function `errorPath(c, path)`: the value returned and the diagnostic
printed, if any. With `c` the character of output redirection a failing
`getcwd` ends in `errorExit`. -/
def errorPath (os : OS σ) (s : σ) (c : Char) (path : CStr) : Result (Int × Option Diag) :=
  if c = '<' then
    if !pathExists os s path then .ok (1, some .inputNoSuchFile)
    else if !readPerm os s path then .ok (1, some .inputPermissionDenied)
    else .ok (0, none)
  else if c = '>' then
    match os.getcwd s with
    | none => .fatal
    | some wd =>
      if !writePerm os s wd then .ok (1, some .outputPermissionDenied)
      else if !pathExists os s path then .ok (1, some .outputNoSuchFile)
      else .ok (0, none)
  else .ok (0, none)

/-- What a call of `redirection(&fp, tokens)` leaves behind: the value
returned, the token array, the value of `fp`, the diagnostic printed and the
state of the machine. -/
structure Redirected (σ : Type) where
  ret : Int
  tokens : List CStr
  fp : FilePtr
  diag : Option Diag
  st : σ
deriving DecidableEq

/-- The test `strcmp(t, "<") == 0 || strcmp(t, ">") == 0`. -/
def isRedirect (t : CStr) : Bool := t = ['<'] || t = ['>']

/-- The branch of `redirection` for an input operator at index `i` followed
by exactly one token `target`; `before` is `tokens[0 .. i-1]`. -/
def redirectInput (os : OS σ) (s : σ) (tokens before : List CStr) (target : CStr) :
    Result (Redirected σ) :=
  match errorPath os s '<' target with
  | .fatal => .fatal
  | .fault => .fault
  | .ok (e, d) =>
    if e ≠ 0 then
      .ok { ret := -1, tokens := tokens, fp := .unset, diag := d, st := s }
    else if isDir os s target then
      .ok { ret := 0, tokens := before, fp := .unset, diag := none, st := s }
    else
      .ok { ret := 1, tokens := before,
            fp := if os.fopenR s target then .stream target false else .null,
            diag := none, st := s }

/-- The branch of `redirection` for an output operator at index `i` followed
by exactly one token `target`; `before` is `tokens[0 .. i-1]`. `errorPath` is
called only when `fopen` has returned NULL, and when it returns 0 the
function goes on to return 2. -/
def redirectOutput (os : OS σ) (s : σ) (tokens before : List CStr) (target : CStr) :
    Result (Redirected σ) :=
  if isDir os s target then
    .ok { ret := -1, tokens := tokens, fp := .unset, diag := some .outputIsADirectory, st := s }
  else
    match os.fopenW s target with
    | some s' =>
      .ok { ret := 2, tokens := before, fp := .stream target true, diag := none, st := s' }
    | none =>
      match errorPath os s '>' target with
      | .fatal => .fatal
      | .fault => .fault
      | .ok (e, d) =>
        if e ≠ 0 then
          .ok { ret := -1, tokens := tokens, fp := .null, diag := d, st := s }
        else
          .ok { ret := 2, tokens := before, fp := .null, diag := none, st := s }

/-- The loop `for (int i = 1; tokens[i] != NULL; i++)` of `redirection`:
`before` is `tokens[0 .. i-1]` and the last argument is `tokens[i ..]`. The
first operator met decides the call. -/
def redirectionLoop (os : OS σ) (s : σ) (tokens : List CStr) :
    List CStr → List CStr → Result (Redirected σ)
  | _, [] => .ok { ret := 0, tokens := tokens, fp := .unset, diag := none, st := s }
  | before, t :: rest =>
    if isRedirect t then
      match rest with
      | [] =>
        .ok { ret := -1, tokens := tokens, fp := .unset, diag := some .invalidRedirection, st := s }
      | [target] =>
        if t = ['<'] then redirectInput os s tokens before target
        else redirectOutput os s tokens before target
      | _ :: _ :: _ =>
        .ok { ret := -1, tokens := tokens, fp := .unset, diag := some .invalidRedirection, st := s }
    else redirectionLoop os s tokens (before ++ [t]) rest

/-- The function `redirection(&fp, tokens)`. An empty token array hands NULL
to `strcmp`. -/
def redirection (os : OS σ) (s : σ) (tokens : List CStr) : Result (Redirected σ) :=
  match tokens with
  | [] => .fault
  | t0 :: rest =>
    if isRedirect t0 then
      .ok { ret := -1, tokens := tokens, fp := .unset, diag := some .invalidRedirection, st := s }
    else redirectionLoop os s tokens [t0] rest

/-- The function `isExecutable`. -/
def isExecutable (os : OS σ) (s : σ) (cmd : CStr) : Bool :=
  match os.stat s cmd with
  | none => false
  | some st =>
    if !st.isReg then false
    else if st.st_uid = os.getuid s && st.xusr then true
    else if st.st_gid = os.getgid s && st.xgrp then true
    else if st.xoth then true
    else false

/-- The size of the buffers `line`, `executable` and `wd`. -/
def MAXLINE : Nat := 200

/-- The loop of `findExecutable` over the directories: the value of
`executable` when the loop breaks, `none` when it runs to the NULL entry.
Each pass writes `dir/cmd` and its NUL into the `MAXLINE` bytes of
`executable` with `sprintf`; a candidate of `MAXLINE` characters or more
goes past the end of the buffer. -/
def searchPath (os : OS σ) (s : σ) (cmd : CStr) : List CStr → Result (Option CStr)
  | [] => .ok none
  | dir :: dirs =>
    if MAXLINE ≤ (dir ++ ['/'] ++ cmd).length then .fault
    else if isExecutable os s (dir ++ ['/'] ++ cmd) then .ok (some (dir ++ ['/'] ++ cmd))
    else searchPath os s cmd dirs

/-- The function `findExecutable(cmd, path)`; `none` is NULL. A name whose
first character is a slash or a dot is tested as it is; any other name is
looked up in the directories. In both cases an empty `executable` gives
NULL. In the first case `strcpy` copies `cmd`, which `main` takes from
`line`, a buffer of the size of `executable`. -/
def findExecutable (os : OS σ) (s : σ) (cmd : CStr) (path : List CStr) :
    Result (Option CStr) :=
  let executable : Result CStr :=
    if cmd.head? = some '/' || cmd.head? = some '.' then
      if isExecutable os s cmd then .ok cmd else .ok []
    else
      match searchPath os s cmd path with
      | .ok (some e) => .ok e
      | .ok none => .ok []
      | .fatal => .fatal
      | .fault => .fault
  match executable with
  | .ok e => if e = [] then .ok none else .ok (some e)
  | .fatal => .fatal
  | .fault => .fault

/-- The function `trim`: the string without its leading and trailing white
space. On a string of white space only the C code reads `str[-1]`; the
result is then the empty string, as when that byte is not white space. -/
def trim (str : CStr) : CStr :=
  ((str.dropWhile isspace).reverse.dropWhile isspace).reverse

/-- The loop of `fileNameExpand` over `tokens[1 ..]`: the matches of each
token, in order; a failing `glob` ends in `errorExit`. -/
def expandArgs (os : OS σ) (s : σ) : List CStr → Result (List CStr)
  | [] => .ok []
  | t :: ts =>
    match os.glob s t with
    | none => .fatal
    | some paths =>
      match expandArgs os s ts with
      | .ok more => .ok (paths ++ more)
      | .fatal => .fatal
      | .fault => .fault

/-- The function `fileNameExpand`: an empty token array is returned as it
is; otherwise `tokens[0]` is copied and every later token is replaced by its
matches. -/
def fileNameExpand (os : OS σ) (s : σ) (tokens : List CStr) : Result (List CStr) :=
  match tokens with
  | [] => .ok []
  | t0 :: rest =>
    match expandArgs os s rest with
    | .ok more => .ok (t0 :: more)
    | .fatal => .fatal
    | .fault => .fault

/-- The function `pwd`: prints the working directory; a failing `getcwd`
ends in `errorExit`. -/
def pwd (os : OS σ) (s : σ) : Result Unit :=
  match os.getcwd s with
  | some _ => .ok ()
  | none => .fatal

/-- The function `cd(arg)`: the value returned (2 when `chdir` fails, 3
otherwise) and the state of the machine. `arg` is `none` for NULL; without
an argument a NULL `getenv("HOME")` is handed to `strcpy`. The new directory
is written into the `MAXLINE` bytes of `wd` by `strcpy` or `strcat`; a text
of `MAXLINE` characters or more goes past the end of the buffer. -/
def cd (os : OS σ) (s : σ) (arg : Option CStr) : Result (Int × σ) :=
  match os.getcwd s with
  | none => .fatal
  | some wd =>
    let written : Result CStr :=
      match arg with
      | none =>
        match os.getenvHOME s with
        | some home => .ok home
        | none => .fault
      | some a => if a.head? = some '/' then .ok a else .ok (wd ++ ['/'] ++ a)
    let target : Result CStr :=
      match written with
      | .ok dir => if MAXLINE ≤ dir.length then .fault else .ok dir
      | .fatal => .fatal
      | .fault => .fault
    match target with
    | .fatal => .fatal
    | .fault => .fault
    | .ok dir =>
      match os.chdir s dir with
      | some s' =>
        match pwd os s' with
        | .ok _ => .ok (3, s')
        | .fatal => .fatal
        | .fault => .fault
      | none => .ok (2, s)

/-- The function `shellBuiltIn(cmd, arg)`: 1 for `exit`, 3 for `h`,
`history` and `pwd`, the value of `cd(arg)` for `cd`, 0 otherwise. -/
def shellBuiltIn (os : OS σ) (s : σ) (cmd : CStr) (arg : Option CStr) : Result (Int × σ) :=
  if cmd = "exit".toList then .ok (1, s)
  else if cmd = "h".toList || cmd = "history".toList then .ok (3, s)
  else if cmd = "pwd".toList then
    match pwd os s with
    | .ok _ => .ok (3, s)
    | .fatal => .fatal
    | .fault => .fault
  else if cmd = "cd".toList then cd os s arg
  else .ok (0, s)

/-- The child process that `main` creates: the program handed to `execve`,
its argument vector, and the redirection it is given. -/
structure Child where
  exe : CStr
  argv : List CStr
  redirect : Int
  fp : FilePtr
deriving DecidableEq, Repr

/-- How the block `if (!built_in) ...` of `main` ends. -/
inductive ExecStatus where
  /-- The call of `redirection` returned a negative value: `continue`. -/
  | redirectionError
  /-- The call of `findExecutable` returned NULL ("Command not found"): `continue`. -/
  | commandNotFound
  /-- A child was created and waited for. -/
  | ran
deriving DecidableEq, Repr

/-- What the block `if (!built_in) ...` leaves behind. -/
structure Executed (σ : Type) where
  status : ExecStatus
  machine : σ
  child : Option Child
  diag : Option Diag
deriving DecidableEq

/-- The block `if (!built_in) ...` of `main` (lines 139-209) on the token
array `tokens`: `redirection`, then `findExecutable` on `tok_line[0]`, then
`pipe`, `fork` and the two processes. In the parent a redirection with a
NULL stream hands NULL to `fgets` or `fclose`. -/
def execute (os : OS σ) (path : List CStr) (s : σ) (tokens : List CStr) :
    Result (Executed σ) :=
  match redirection os s tokens with
  | .fatal => .fatal
  | .fault => .fault
  | .ok r =>
    if r.ret < 0 then
      .ok { status := .redirectionError, machine := r.st, child := none, diag := r.diag }
    else
      match r.tokens with
      | [] => .fault
      | cmd :: _ =>
        match findExecutable os r.st cmd path with
        | .fatal => .fatal
        | .fault => .fault
        | .ok none =>
          .ok { status := .commandNotFound, machine := r.st, child := none, diag := none }
        | .ok (some exe) =>
          match os.spawn r.st exe r.tokens r.ret r.fp with
          | none => .fatal
          | some s' =>
            if r.ret > 0 && (r.fp = .null || r.fp = .unset) then .fault
            else
              .ok { status := .ran, machine := s',
                    child := some { exe := exe, argv := r.tokens, redirect := r.ret, fp := r.fp },
                    diag := none }

/-- The variables of `main` that one iteration of its loop hands to the next:
the command history, `cmdNo`, and the state of the machine. -/
structure Shell (σ : Type) where
  history : HistoryList
  cmdNo : Int
  machine : σ
deriving DecidableEq

/-- How one iteration of the loop of `main` ends. -/
inductive Outcome where
  /-- The trimmed line is empty: `continue`. -/
  | emptyCommand
  /-- "Invalid history substitution": `continue`. -/
  | invalidSubstitution
  /-- "No command #seqNo": `continue`. -/
  | noCommand (seqNo : Int)
  /-- The built-in `exit`: `break`. -/
  | exit
  /-- The built-in `cd` failed: `continue`. -/
  | cdFailed
  /-- The call of `redirection` returned a negative value: `continue`. -/
  | redirectionError
  /-- "Command not found": `continue`. -/
  | commandNotFound
  /-- The end of the loop body is reached: the line is added to the history
  and `cmdNo` is incremented. -/
  | recorded
deriving DecidableEq, Repr

/-- What one iteration of the loop of `main` leaves behind. -/
structure Step (σ : Type) where
  outcome : Outcome
  shell : Shell σ
  child : Option Child
deriving DecidableEq

/-- The loop body of `main` from the call of `tokenise` on (lines 127-220),
for the line `ln` after history substitution. -/
def runLine (os : OS σ) (path : List CStr) (sh : Shell σ) (ln : CStr) : Result (Step σ) :=
  match tokenise ln [' '] with
  | .fatal => .fatal
  | .fault => .fault
  | .ok toks =>
    match fileNameExpand os sh.machine toks with
    | .fatal => .fatal
    | .fault => .fault
    | .ok tok_line =>
      match tok_line with
      | [] => .fault
      | cmd :: _ =>
        match shellBuiltIn os sh.machine cmd tok_line[1]? with
        | .fatal => .fatal
        | .fault => .fault
        | .ok (built_in, s1) =>
          if built_in = 1 then
            .ok { outcome := .exit, shell := { sh with machine := s1 }, child := none }
          else if built_in = 2 then
            .ok { outcome := .cdFailed, shell := { sh with machine := s1 }, child := none }
          else if built_in = 0 then
            match execute os path s1 tok_line with
            | .fatal => .fatal
            | .fault => .fault
            | .ok e =>
              match e.status with
              | .redirectionError =>
                .ok { outcome := .redirectionError, shell := { sh with machine := e.machine },
                      child := none }
              | .commandNotFound =>
                .ok { outcome := .commandNotFound, shell := { sh with machine := e.machine },
                      child := none }
              | .ran =>
                .ok { outcome := .recorded,
                      shell := { history := addToCommandHistory sh.history ln sh.cmdNo,
                                 cmdNo := sh.cmdNo + 1, machine := e.machine },
                      child := e.child }
          else
            .ok { outcome := .recorded,
                  shell := { history := addToCommandHistory sh.history ln sh.cmdNo,
                             cmdNo := sh.cmdNo + 1, machine := s1 },
                  child := none }

/-- One iteration of the loop of `main` on the line `raw` that `fgets` has
read: `trim`, the test for an empty command, history substitution when the
line starts with an exclamation mark, then the rest of the body. -/
def mainStep (os : OS σ) (path : List CStr) (sh : Shell σ) (raw : CStr) : Result (Step σ) :=
  let ln := trim raw
  if ln = [] then .ok { outcome := .emptyCommand, shell := sh, child := none }
  else if ln.head? = some '!' then
    match historySubstitution sh.history sh.cmdNo ln with
    | .invalid => .ok { outcome := .invalidSubstitution, shell := sh, child := none }
    | .noCommand n => .ok { outcome := .noCommand n, shell := sh, child := none }
    | .replaced text => runLine os path sh text
  else runLine os path sh ln

/-- The set-up of the command path in `main` (lines 76-83): `envPATH` is the
text after `PATH=` of the first entry of `envp` that starts with `PATH=`,
`none` when there is no such entry; the path is the default text or that
text, split on the colon. -/
def commandPath (envPATH : Option CStr) : Result (List CStr) :=
  match envPATH with
  | none => tokenise "/bin:/usr/bin".toList [':']
  | some value => tokenise value [':']

/-- The loop `while (fgets(line, MAXLINE, stdin) != NULL)` of `main` on the
lines that `fgets` reads, in turn: the variables of `main` when the loop
ends, at the end of the input or at the `break` of the built-in `exit`. -/
def mainLoop (os : OS σ) (path : List CStr) : Shell σ → List CStr → Result (Shell σ)
  | sh, [] => .ok sh
  | sh, raw :: rest =>
    match mainStep os path sh raw with
    | .ok r => if r.outcome = .exit then .ok r.shell else mainLoop os path r.shell rest
    | .fatal => .fatal
    | .fault => .fault

end Shell

/-! ## A small concrete machine

A file system of named nodes with the permissions of the user who runs the
shell. It instantiates `OS` for the concrete runs below. -/

/-- A node of the file system: a directory or a regular file, with what the
user who runs the shell may do with it, and the size of its contents. -/
structure Node where
  path : CStr
  dir : Bool
  readable : Bool
  writable : Bool
  executable : Bool
  size : Nat
deriving DecidableEq, Repr

/-- The state of the small machine: its nodes and the working directory of
the shell. -/
structure Machine where
  nodes : List Node
  cwd : CStr
deriving DecidableEq, Repr

/-- The node named `p`, if there is one. -/
def Machine.lookup (m : Machine) (p : CStr) : Option Node :=
  m.nodes.find? (fun n => n.path = p)

/-- Opening `p` for writing on the small machine: an existing regular file
that the user may write is truncated; a directory or a file the user may not
write cannot be opened; a missing file is created when the working directory
is writable. -/
def Machine.openForWriting (m : Machine) (p : CStr) : Option Machine :=
  match m.lookup p with
  | some n =>
    if n.dir || !n.writable then none
    else some { m with nodes := m.nodes.map (fun x => if x.path = p then { x with size := 0 } else x) }
  | none =>
    match m.lookup m.cwd with
    | some d =>
      if d.dir && d.writable then
        some { m with nodes := m.nodes ++
          [{ path := p, dir := false, readable := true, writable := true,
             executable := false, size := 0 }] }
      else none
    | none => none

/-- The operations of the small machine. Every node belongs to the user who
runs the shell (uid and gid 1000); `glob` finds no match and returns the
pattern; a child process runs and ends without touching the files. -/
def smallOS : OS Machine where
  stat m p := (m.lookup p).map (fun n =>
    { isReg := !n.dir, isDir := n.dir, st_uid := 1000, st_gid := 1000,
      xusr := n.executable, xgrp := false, xoth := false })
  accessF m p := (m.lookup p).isSome
  accessR m p := match m.lookup p with
    | some n => n.readable
    | none => false
  accessW m p := match m.lookup p with
    | some n => n.writable
    | none => false
  getuid _ := 1000
  getgid _ := 1000
  getcwd m := some m.cwd
  getenvHOME _ := some "/home/u".toList
  fopenR m p := match m.lookup p with
    | some n => !n.dir && n.readable
    | none => false
  fopenW m p := m.openForWriting p
  chdir m p := match m.lookup p with
    | some n => if n.dir then some { m with cwd := p } else none
    | none => none
  glob _ pat := some [pat]
  spawn m _ _ _ _ := some m

/-- A directory node that the user may read, write and search. -/
def dirNode (p : String) : Node :=
  { path := p.toList, dir := true, readable := true, writable := true, executable := true, size := 0 }

/-- An executable regular file. -/
def programNode (p : String) : Node :=
  { path := p.toList, dir := false, readable := true, writable := false, executable := true,
    size := 100 }

/-- A home directory with a program `/bin/cmd`. -/
def homeMachine : Machine :=
  { nodes := [dirNode "/home/u", dirNode "/bin", programNode "/bin/cmd"], cwd := "/home/u".toList }

/-- The node that `fopen(p, "w")` creates on the small machine. -/
def createdNode (p : String) : Node :=
  { path := p.toList, dir := false, readable := true, writable := true, executable := false,
    size := 0 }

/-- A home directory that holds a read-only file `ro.txt`, and a program
`/bin/echo`. -/
def readOnlyFileMachine : Machine :=
  { nodes := [dirNode "/home/u", dirNode "/bin", programNode "/bin/echo",
              { path := "ro.txt".toList, dir := false, readable := true, writable := false,
                executable := false, size := 7 }],
    cwd := "/home/u".toList }

/-- A home directory that holds a directory `vault` which the user may not
read, and a program `/bin/ls`. -/
def vaultMachine : Machine :=
  { nodes := [dirNode "/home/u", dirNode "/bin", programNode "/bin/ls",
              { path := "vault".toList, dir := true, readable := false, writable := false,
                executable := false, size := 0 }],
    cwd := "/home/u".toList }

/-- A home directory that holds a program `sub/prog`; the search path
directory `/opt` holds a program `/opt/sub/prog`, the directory `/bin` holds
nothing of that name. -/
def subdirMachine : Machine :=
  { nodes := [dirNode "/home/u", dirNode "/bin", dirNode "/opt", programNode "sub/prog",
              programNode "/opt/sub/prog", programNode "./prog"],
    cwd := "/home/u".toList }

/-- A home directory that holds a writable file `notes.txt` of 7 bytes. -/
def notesMachine : Machine :=
  { nodes := [dirNode "/home/u", dirNode "/bin",
              { path := "notes.txt".toList, dir := false, readable := true, writable := true,
                executable := false, size := 7 }],
    cwd := "/home/u".toList }

/-! ## The tokenizer returns the maximal runs -/

theorem splitOnP_span (p : Char → Bool) (s : CStr) :
    s.splitOnP p = s.takeWhile (fun x => !p x) ::
      (match s.dropWhile (fun x => !p x) with
       | [] => []
       | _ :: r => r.splitOnP p) := by
  induction s with
  | nil => simp
  | cons x xs ih =>
    rw [List.splitOnP_cons]
    by_cases hx : p x = true
    · simp [hx]
    · simp only [hx, Bool.false_eq_true, if_false]
      rw [ih]
      simp [hx, List.modifyHead]

theorem maximalRuns_dropWhile (sep s : CStr) :
    maximalRuns (s.dropWhile (inSet sep)) sep = maximalRuns s sep := by
  induction s with
  | nil => rfl
  | cons x xs ih =>
    by_cases hx : inSet sep x = true
    · rw [List.dropWhile_cons_of_pos hx, ih]
      simp [maximalRuns, List.splitOnP_cons, hx]
    · rw [List.dropWhile_cons_of_neg hx]

theorem maximalRuns_head (sep : CStr) (c : Char) (cs : CStr) (hc : inSet sep c = false) :
    maximalRuns (c :: cs) sep =
      (c :: cs).takeWhile (fun x => !inSet sep x) ::
        maximalRuns ((c :: cs).dropWhile (fun x => !inSet sep x)).tail sep := by
  unfold maximalRuns
  rw [splitOnP_span (inSet sep) (c :: cs)]
  have h1 : (c :: cs).takeWhile (fun x => !inSet sep x)
      = c :: cs.takeWhile (fun x => !inSet sep x) := by simp [hc]
  rw [h1]
  cases h : (c :: cs).dropWhile (fun x => !inSet sep x) with
  | nil => simp
  | cons y r => simp

theorem strtok_save_length (sep s : CStr) : (strtok sep s).2.length ≤ s.length - 1 := by
  unfold strtok
  have h1 : (s.dropWhile (inSet sep)).length ≤ s.length :=
    (List.dropWhile_sublist _).length_le
  cases h : s.dropWhile (inSet sep) with
  | nil => simp
  | cons c cs =>
    rw [h] at h1
    have h2 : ((c :: cs).dropWhile (fun x => !inSet sep x)).length ≤ (c :: cs).length :=
      (List.dropWhile_sublist _).length_le
    simp only [List.length_tail]
    simp only [List.length_cons] at h1 h2 ⊢
    omega

theorem strtokLoop_eq (sep : CStr) : ∀ (fuel : Nat) (s : CStr), s.length ≤ fuel →
    strtokLoop sep fuel s = maximalRuns s sep := by
  intro fuel
  induction fuel with
  | zero =>
    intro s hs
    have : s = [] := List.length_eq_zero.mp (Nat.le_zero.mp hs)
    subst this
    rfl
  | succ fuel ih =>
    intro s hs
    have hlen := strtok_save_length sep s
    rw [← maximalRuns_dropWhile]
    unfold strtokLoop
    unfold strtok at hlen ⊢
    cases h : s.dropWhile (inSet sep) with
    | nil => rfl
    | cons c cs =>
      rw [h] at hlen
      have hc : inSet sep c = false := by
        have := List.head_dropWhile_not (inSet sep) s
        simpa [h] using this
      simp only
      rw [maximalRuns_head sep c cs hc, ih]
      simp only at hlen
      omega

theorem splitOnP_no_sep (p : Char → Bool) (s : CStr) :
    ∀ t ∈ s.splitOnP p, ∀ c ∈ t, p c = false := by
  induction s with
  | nil => simp
  | cons x xs ih =>
    rw [List.splitOnP_cons]
    by_cases hx : p x = true
    · simp only [hx, if_true]
      intro t ht
      rcases List.mem_cons.mp ht with rfl | ht
      · simp
      · exact ih t ht
    · simp only [hx, Bool.false_eq_true, if_false]
      cases hsp : xs.splitOnP p with
      | nil => simp [List.modifyHead]
      | cons y ys =>
        rw [hsp] at ih
        intro t ht
        simp only [List.modifyHead, List.mem_cons] at ht
        rcases ht with rfl | ht
        · intro c hc
          rcases List.mem_cons.mp hc with rfl | hc
          · simpa using hx
          · exact ih y (List.mem_cons_self _ _) c hc
        · exact ih t (List.mem_cons_of_mem _ ht)

theorem splitOnP_join (p : Char → Bool) (s : CStr) :
    (s.splitOnP p).flatten = s.filter (fun c => !p c) := by
  induction s with
  | nil => simp
  | cons x xs ih =>
    rw [List.splitOnP_cons]
    by_cases hx : p x = true
    · simp [hx, ih]
    · simp only [hx, Bool.false_eq_true, if_false]
      cases hsp : xs.splitOnP p with
      | nil => exact absurd hsp (List.splitOnP_ne_nil p xs)
      | cons y ys =>
        rw [hsp] at ih
        simp only [List.flatten_cons] at ih
        simp only [List.modifyHead, List.flatten_cons, List.cons_append]
        rw [ih]
        simp [hx]

theorem join_filter_nonempty (l : List CStr) :
    (l.filter (fun t => !t.isEmpty)).flatten = l.flatten := by
  induction l with
  | nil => rfl
  | cons t ts ih =>
    cases t with
    | nil => simpa using ih
    | cons c cs => simp [ih]

theorem maximalRuns_ne_nil (s sep : CStr) (h : ∃ c ∈ s, c ∉ sep) : maximalRuns s sep ≠ [] := by
  intro hnil
  have hj : (maximalRuns s sep).flatten = s.filter (fun c => !inSet sep c) := by
    unfold maximalRuns
    rw [join_filter_nonempty, splitOnP_join]
  rw [hnil] at hj
  obtain ⟨c, hc, hns⟩ := h
  have : c ∈ s.filter (fun c => !inSet sep c) := by
    simp [List.mem_filter, hc, inSet, hns]
  rw [← hj] at this
  simp at this

theorem tokenise_eq (s sep : CStr) (h : maximalRuns s sep ≠ []) :
    tokenise s sep = .ok (maximalRuns s sep) := by
  have hlen := strtok_save_length sep s
  have key : strtokLoop sep (s.length + 1) s = maximalRuns s sep :=
    strtokLoop_eq sep (s.length + 1) s (Nat.le_succ _)
  have hstep : strtokLoop sep (s.length + 1) s =
      (match strtok sep s with
       | (none, _) => []
       | (some t, save) => t :: strtokLoop sep s.length save) := rfl
  rw [← key, hstep] at h ⊢
  unfold tokenise
  cases hst : strtok sep s with
  | mk r save =>
    rw [hst] at h hlen
    cases r with
    | none => simp at h
    | some t => simp; omega

/-- C1: on a string with at least one non-separator character `tokenise`
returns exactly the maximal runs of non-separator characters, in order (the
pieces of the string split at every separator, without the empty ones):
there is at least one token, no token is empty, no token contains a
separator, and the tokens put together are the non-separator characters of
the string. The spec's example: two blanks, `ls`, three blanks, `-l`, two
blanks gives `ls` and `-l`. -/
theorem tokenise_maximal_runs (s sep : CStr) (h : ∃ c ∈ s, c ∉ sep) :
    tokenise s sep = .ok (maximalRuns s sep) ∧
    maximalRuns s sep ≠ [] ∧
    (∀ t ∈ maximalRuns s sep, t ≠ [] ∧ ∀ c ∈ t, c ∉ sep) ∧
    (maximalRuns s sep).flatten = s.filter (fun c => decide (c ∉ sep)) ∧
    tokenise "  ls   -l  ".toList " ".toList = .ok ["ls".toList, "-l".toList] := by
  refine ⟨tokenise_eq s sep (maximalRuns_ne_nil s sep h), maximalRuns_ne_nil s sep h, ?_, ?_,
    by decide⟩
  · intro t ht
    unfold maximalRuns at ht
    rw [List.mem_filter] at ht
    refine ⟨?_, ?_⟩
    · intro hnil
      simp [hnil] at ht
    · intro c hc
      have := splitOnP_no_sep (inSet sep) s t ht.1 c hc
      simpa [inSet] using this
  · unfold maximalRuns
    rw [join_filter_nonempty, splitOnP_join]
    congr 1
    funext c
    simp [inSet]

/-- Witness of C1: the default search path `/bin:/usr/bin` split on the
colon. -/
theorem tokenise_maximal_runs_witness :
    (∃ c ∈ "/bin:/usr/bin".toList, c ∉ ":".toList) ∧
    tokenise "/bin:/usr/bin".toList ":".toList = .ok (maximalRuns "/bin:/usr/bin".toList ":".toList) ∧
    maximalRuns "/bin:/usr/bin".toList ":".toList = ["/bin".toList, "/usr/bin".toList] :=
  ⟨⟨'/', by decide, by decide⟩,
   (tokenise_maximal_runs "/bin:/usr/bin".toList ":".toList ⟨'/', by decide, by decide⟩).1,
   by decide⟩


/-! ## The redirection resolver -/

section Redirection

variable {σ : Type}

theorem redirectionLoop_skip (os : OS σ) (s : σ) (tokens : List CStr) :
    ∀ (mid acc rest : List CStr), (∀ x ∈ mid, isRedirect x = false) →
      redirectionLoop os s tokens acc (mid ++ rest) =
        redirectionLoop os s tokens (acc ++ mid) rest := by
  intro mid
  induction mid with
  | nil => intro acc rest _; simp
  | cons m ms ih =>
    intro acc rest h
    have hm : isRedirect m = false := h m (List.mem_cons_self _ _)
    have hms : ∀ x ∈ ms, isRedirect x = false := fun x hx => h x (List.mem_cons_of_mem _ hx)
    have step : redirectionLoop os s tokens acc (m :: (ms ++ rest)) =
        redirectionLoop os s tokens (acc ++ [m]) (ms ++ rest) := by
      simp [redirectionLoop, hm]
    rw [List.cons_append, step, ih (acc ++ [m]) rest hms]
    simp

theorem redirectionLoop_none (os : OS σ) (s : σ) (tokens : List CStr) :
    ∀ (rest acc : List CStr), (∀ x ∈ rest, isRedirect x = false) →
      redirectionLoop os s tokens acc rest =
        .ok { ret := 0, tokens := tokens, fp := .unset, diag := none, st := s } := by
  intro rest
  induction rest with
  | nil => intro acc _; rfl
  | cons m ms ih =>
    intro acc h
    have hm : isRedirect m = false := h m (List.mem_cons_self _ _)
    simp only [redirectionLoop, hm, Bool.false_eq_true, if_false]
    exact ih _ (fun x hx => h x (List.mem_cons_of_mem _ hx))

/-- What `redirection` does at the first operator, when it is not the first
token: the tokens after it decide. -/
theorem redirection_first_operator (os : OS σ) (s : σ) (before after : List CStr) (t : CStr)
    (hne : before ≠ []) (hfree : ∀ b ∈ before, isRedirect b = false)
    (ht : isRedirect t = true) :
    redirection os s (before ++ t :: after) =
      match after with
      | [] =>
        .ok { ret := -1, tokens := before ++ t :: after, fp := .unset,
              diag := some .invalidRedirection, st := s }
      | [target] =>
        if t = ['<'] then redirectInput os s (before ++ t :: after) before target
        else redirectOutput os s (before ++ t :: after) before target
      | _ :: _ :: _ =>
        .ok { ret := -1, tokens := before ++ t :: after, fp := .unset,
              diag := some .invalidRedirection, st := s } := by
  cases before with
  | nil => exact absurd rfl hne
  | cons t0 mid =>
    have h0 : isRedirect t0 = false := hfree t0 (List.mem_cons_self _ _)
    have hmid : ∀ x ∈ mid, isRedirect x = false :=
      fun x hx => hfree x (List.mem_cons_of_mem _ hx)
    simp only [redirection, List.cons_append, h0, Bool.false_eq_true, if_false]
    rw [redirectionLoop_skip os s _ mid [t0] (t :: after) hmid]
    simp only [redirectionLoop, ht, if_true, List.singleton_append]

theorem redirection_no_operator (os : OS σ) (s : σ) (tokens : List CStr) (hne : tokens ≠ [])
    (hfree : ∀ b ∈ tokens, isRedirect b = false) :
    redirection os s tokens =
      .ok { ret := 0, tokens := tokens, fp := .unset, diag := none, st := s } := by
  cases tokens with
  | nil => exact absurd rfl hne
  | cons t0 rest =>
    have h0 : isRedirect t0 = false := hfree t0 (List.mem_cons_self _ _)
    simp only [redirection, h0, Bool.false_eq_true, if_false]
    exact redirectionLoop_none os s _ rest [t0] (fun x hx => hfree x (List.mem_cons_of_mem _ hx))

theorem exists_first_redirect (l : List CStr) (h : ∃ x ∈ l, isRedirect x = true) :
    ∃ before t after, l = before ++ t :: after ∧ (∀ b ∈ before, isRedirect b = false) ∧
      isRedirect t = true := by
  induction l with
  | nil => obtain ⟨x, hx, _⟩ := h; simp at hx
  | cons a as ih =>
    by_cases ha : isRedirect a = true
    · exact ⟨[], a, as, rfl, by simp, ha⟩
    · have : ∃ x ∈ as, isRedirect x = true := by
        obtain ⟨x, hx, hxr⟩ := h
        rcases List.mem_cons.mp hx with rfl | hx
        · exact absurd hxr ha
        · exact ⟨x, hx, hxr⟩
      obtain ⟨before, t, after, hl, hfree, ht⟩ := ih this
      refine ⟨a :: before, t, after, by simp [hl], ?_, ht⟩
      intro b hb
      rcases List.mem_cons.mp hb with rfl | hb
      · simpa using ha
      · exact hfree b hb

theorem execute_of_rejected (os : OS σ) (path : List CStr) (s : σ) (tokens : List CStr)
    (d : Option Diag) (fp : FilePtr)
    (h : redirection os s tokens =
      .ok { ret := -1, tokens := tokens, fp := fp, diag := d, st := s }) :
    execute os path s tokens =
      .ok { status := .redirectionError, machine := s, child := none, diag := d } := by
  simp [execute, h]

/-- The result of `redirection` that goes with "Invalid i/o redirection". -/
theorem redirection_invalid_of (os : OS σ) (s : σ) (tokens : List CStr)
    (h : (∃ t rest, tokens = t :: rest ∧ isRedirect t = true) ∨
      (∃ before t after, tokens = before ++ t :: after ∧ before ≠ [] ∧
        (∀ b ∈ before, isRedirect b = false) ∧ isRedirect t = true ∧
        (after = [] ∨ 2 ≤ after.length))) :
    redirection os s tokens =
      .ok { ret := -1, tokens := tokens, fp := .unset, diag := some .invalidRedirection,
            st := s } := by
  rcases h with ⟨t, rest, rfl, ht⟩ | ⟨before, t, after, rfl, hne, hfree, ht, hafter⟩
  · simp [redirection, ht]
  · rw [redirection_first_operator os s before after t hne hfree ht]
    cases after with
    | nil => rfl
    | cons a as =>
      cases as with
      | nil => simp at hafter
      | cons b bs => rfl

/-- C2 (amended): `redirection` returns -1 with "Invalid i/o redirection",
leaving the tokens and the machine as they were, and `main` then abandons
the line without creating a child, whenever (a) the first token is a
redirection operator, or (b) the first operator after the first token is the
last token, or (c) it is followed by more than one token, or (d) two
operators appear, unless they are the last two tokens and no operator comes
before them. -/
theorem redirection_rejects_misplaced (os : OS σ) (path : List CStr) (s : σ)
    (tokens : List CStr)
    (h : (∃ t rest, tokens = t :: rest ∧ isRedirect t = true) ∨
      (∃ before t, tokens = before ++ [t] ∧ before ≠ [] ∧
        (∀ b ∈ before, isRedirect b = false) ∧ isRedirect t = true) ∨
      (∃ before t after, tokens = before ++ t :: after ∧ before ≠ [] ∧
        (∀ b ∈ before, isRedirect b = false) ∧ isRedirect t = true ∧ 2 ≤ after.length) ∨
      (2 ≤ tokens.countP isRedirect ∧
        ¬ ∃ before a b, tokens = before ++ [a, b] ∧ before ≠ [] ∧
          (∀ x ∈ before, isRedirect x = false) ∧ isRedirect a = true ∧ isRedirect b = true)) :
    redirection os s tokens =
      .ok { ret := -1, tokens := tokens, fp := .unset, diag := some .invalidRedirection,
            st := s } ∧
    execute os path s tokens =
      .ok { status := .redirectionError, machine := s, child := none,
            diag := some .invalidRedirection } := by
  have key : redirection os s tokens =
      .ok { ret := -1, tokens := tokens, fp := .unset, diag := some .invalidRedirection,
            st := s } := by
    rcases h with h | ⟨before, t, rfl, hne, hfree, ht⟩ | ⟨before, t, after, rfl, hne, hfree, ht, h2⟩ | ⟨hcount, hnot⟩
    · exact redirection_invalid_of os s tokens (Or.inl h)
    · exact redirection_invalid_of os s _ (Or.inr ⟨before, t, [], rfl, hne, hfree, ht, Or.inl rfl⟩)
    · exact redirection_invalid_of os s _ (Or.inr ⟨before, t, after, rfl, hne, hfree, ht, Or.inr h2⟩)
    · have hex : ∃ x ∈ tokens, isRedirect x = true := by
        by_contra hcon
        have : tokens.countP isRedirect = 0 := by
          rw [List.countP_eq_zero]
          intro x hx hxr
          exact hcon ⟨x, hx, hxr⟩
        omega
      obtain ⟨before, t, after, rfl, hfree, ht⟩ := exists_first_redirect tokens hex
      have hzero : before.countP isRedirect = 0 := by
        rw [List.countP_eq_zero]
        intro x hx hxr
        simp [hfree x hx] at hxr
      cases before with
      | nil => exact redirection_invalid_of os s _ (Or.inl ⟨t, after, rfl, ht⟩)
      | cons b0 bs =>
        refine redirection_invalid_of os s _
          (Or.inr ⟨b0 :: bs, t, after, rfl, by simp, hfree, ht, ?_⟩)
        cases after with
        | nil => exact Or.inl rfl
        | cons a as =>
          right
          cases as with
          | nil =>
            exfalso
            have ha : isRedirect a = true := by
              by_contra hna
              rw [List.countP_append, hzero, List.countP_cons_of_pos _ _ ht,
                List.countP_cons_of_neg _ _ hna] at hcount
              simp at hcount
            exact hnot ⟨b0 :: bs, t, a, rfl, by simp, hfree, ht, ha⟩
          | cons c cs => simp
  exact ⟨key, execute_of_rejected os path s tokens _ _ key⟩

end Redirection

/-- C2 (counterexample): in `cmd > >` two redirection operators appear and an
operator is the last token, yet `redirection` returns 2: it takes the second
operator as the target, creates a file of that name, and `main` runs
`/bin/cmd` with its output redirected to it. -/
theorem redirection_operator_as_target :
    (["cmd".toList, ">".toList, ">".toList].getLast?.map isRedirect = some true) ∧
    ["cmd".toList, ">".toList, ">".toList].countP isRedirect = 2 ∧
    redirection smallOS homeMachine ["cmd".toList, ">".toList, ">".toList] =
      .ok { ret := 2, tokens := ["cmd".toList], fp := .stream ">".toList true, diag := none,
            st := { homeMachine with nodes := homeMachine.nodes ++ [createdNode ">"] } } ∧
    execute smallOS ["/bin".toList] homeMachine ["cmd".toList, ">".toList, ">".toList] =
      .ok { status := .ran,
            machine := { homeMachine with nodes := homeMachine.nodes ++ [createdNode ">"] },
            child := some { exe := "/bin/cmd".toList, argv := ["cmd".toList], redirect := 2,
                            fp := .stream ">".toList true },
            diag := none } := by
  decide

/-- Witness of C2 (amended): the spec's example `cmd > out.txt extra`, where
the operator is followed by two tokens. -/
theorem redirection_rejects_misplaced_witness :
    redirection smallOS homeMachine
        ["cmd".toList, ">".toList, "out.txt".toList, "extra".toList] =
      .ok { ret := -1, tokens := ["cmd".toList, ">".toList, "out.txt".toList, "extra".toList],
            fp := .unset, diag := some .invalidRedirection, st := homeMachine } ∧
    execute smallOS ["/bin".toList] homeMachine
        ["cmd".toList, ">".toList, "out.txt".toList, "extra".toList] =
      .ok { status := .redirectionError, machine := homeMachine, child := none,
            diag := some .invalidRedirection } :=
  redirection_rejects_misplaced smallOS ["/bin".toList] homeMachine
    ["cmd".toList, ">".toList, "out.txt".toList, "extra".toList]
    (Or.inr (Or.inr (Or.inl ⟨["cmd".toList], ">".toList, ["out.txt".toList, "extra".toList],
      rfl, by decide, by decide, by decide, by decide⟩)))

section Redirection

variable {σ : Type}

/-- Whenever `redirection` returns 1 or 2, the token array it leaves is the
tokens before the operator, the operator is second to last, and `fp` is NULL
or a stream on the token after the operator, opened for reading for `<` and
for writing for `>`. -/
theorem redirection_mode_tokens (os : OS σ) (s : σ) (tokens : List CStr) (r : Redirected σ)
    (h : redirection os s tokens = .ok r) (hmode : r.ret = 1 ∨ r.ret = 2) :
    ∃ before t target, tokens = before ++ [t, target] ∧ before ≠ [] ∧
      (∀ b ∈ before, isRedirect b = false) ∧ isRedirect t = true ∧
      r.tokens = before ∧ (r.ret = 1 ↔ t = ['<']) ∧
      (r.fp = .null ∨ r.fp = .stream target (decide (r.ret = 2))) := by
  by_cases hex : ∃ x ∈ tokens, isRedirect x = true
  · obtain ⟨before, t, after, rfl, hfree, ht⟩ := exists_first_redirect tokens hex
    cases before with
    | nil =>
      simp only [List.nil_append, redirection, ht, if_true, Result.ok.injEq] at h
      subst h
      simp at hmode
    | cons b0 bs =>
      rw [redirection_first_operator os s (b0 :: bs) after t (by simp) hfree ht] at h
      match after, h with
      | [], h =>
        simp only [Result.ok.injEq] at h
        subst h
        simp at hmode
      | _ :: _ :: _, h =>
        simp only [Result.ok.injEq] at h
        subst h
        simp at hmode
      | [target], h =>
        refine ⟨b0 :: bs, t, target, rfl, by simp, hfree, ht, ?_⟩
        by_cases hlt : t = ['<']
        · simp only [hlt, if_true, redirectInput] at h
          cases he : errorPath os s '<' target with
          | fatal => simp [he] at h
          | fault => simp [he] at h
          | ok p =>
            obtain ⟨e, d⟩ := p
            simp only [he] at h
            split at h
            · simp only [Result.ok.injEq] at h
              subst h
              simp at hmode
            · split at h
              · simp only [Result.ok.injEq] at h
                subst h
                simp at hmode
              · simp only [Result.ok.injEq] at h
                subst h
                simp only [hlt, true_and]
                cases os.fopenR s target <;> simp
        · simp only [hlt, if_false, redirectOutput] at h
          split at h
          · simp only [Result.ok.injEq] at h
            subst h
            simp at hmode
          · cases hw : os.fopenW s target with
            | some s' =>
              simp only [hw, Result.ok.injEq] at h
              subst h
              simp [hlt]
            | none =>
              simp only [hw] at h
              cases he : errorPath os s '>' target with
              | fatal => simp [he] at h
              | fault => simp [he] at h
              | ok p =>
                obtain ⟨e, d⟩ := p
                simp only [he] at h
                split at h
                · simp only [Result.ok.injEq] at h
                  subst h
                  simp at hmode
                · simp only [Result.ok.injEq] at h
                  subst h
                  simp [hlt]
  · have hfree : ∀ b ∈ tokens, isRedirect b = false := by
      intro b hb
      by_contra hb2
      exact hex ⟨b, hb, by simpa using hb2⟩
    cases tokens with
    | nil => simp [redirection] at h
    | cons t0 rest =>
      rw [redirection_no_operator os s _ (by simp) hfree] at h
      simp only [Result.ok.injEq] at h
      subst h
      simp at hmode

end Redirection

/-- C3 (the code at the failing input): `echo hi > ro.txt` where `ro.txt` is
an existing file that cannot be opened for writing, in a writable working
directory. `fopen` returns NULL, `errorPath` finds nothing to report, and
`redirection` returns 2 with the tokens cut before the operator and a NULL
stream; `main` then creates the child and hands the NULL stream to
`fclose`. -/
theorem redirection_output_null_stream :
    smallOS.fopenW readOnlyFileMachine "ro.txt".toList = none ∧
    redirection smallOS readOnlyFileMachine
        ["echo".toList, "hi".toList, ">".toList, "ro.txt".toList] =
      .ok { ret := 2, tokens := ["echo".toList, "hi".toList], fp := .null, diag := none,
            st := readOnlyFileMachine } ∧
    execute smallOS ["/bin".toList] readOnlyFileMachine
        ["echo".toList, "hi".toList, ">".toList, "ro.txt".toList] = .fault := by
  decide


/-! ## The path resolver -/

section PathResolver

variable {σ : Type}

theorem searchPath_first (os : OS σ) (s : σ) (cmd : CStr) :
    ∀ (before : List CStr) (dir : CStr) (after : List CStr),
      (∀ d ∈ before, (d ++ ['/'] ++ cmd).length < MAXLINE ∧
        isExecutable os s (d ++ ['/'] ++ cmd) = false) →
      (dir ++ ['/'] ++ cmd).length < MAXLINE →
      isExecutable os s (dir ++ ['/'] ++ cmd) = true →
      searchPath os s cmd (before ++ dir :: after) = .ok (some (dir ++ ['/'] ++ cmd)) := by
  intro before
  induction before with
  | nil =>
    intro dir after _ hfit hdir
    simp only [List.nil_append, searchPath]
    rw [if_neg (Nat.not_le.mpr hfit), if_pos hdir]
  | cons b bs ih =>
    intro dir after hbefore hfit hdir
    obtain ⟨hbfit, hb⟩ := hbefore b (List.mem_cons_self _ _)
    simp only [List.cons_append, searchPath]
    rw [if_neg (Nat.not_le.mpr hbfit), if_neg (by rw [hb]; exact Bool.false_ne_true)]
    exact ih dir after (fun d hd => hbefore d (List.mem_cons_of_mem _ hd)) hfit hdir

theorem searchPath_overflow (os : OS σ) (s : σ) (cmd : CStr) :
    ∀ (before : List CStr) (dir : CStr) (after : List CStr),
      (∀ d ∈ before, (d ++ ['/'] ++ cmd).length < MAXLINE ∧
        isExecutable os s (d ++ ['/'] ++ cmd) = false) →
      MAXLINE ≤ (dir ++ ['/'] ++ cmd).length →
      searchPath os s cmd (before ++ dir :: after) = .fault := by
  intro before
  induction before with
  | nil =>
    intro dir after _ hlong
    simp only [List.nil_append, searchPath]
    rw [if_pos hlong]
  | cons b bs ih =>
    intro dir after hbefore hlong
    obtain ⟨hbfit, hb⟩ := hbefore b (List.mem_cons_self _ _)
    simp only [List.cons_append, searchPath]
    rw [if_neg (Nat.not_le.mpr hbfit), if_neg (by rw [hb]; exact Bool.false_ne_true)]
    exact ih dir after (fun d hd => hbefore d (List.mem_cons_of_mem _ hd)) hlong

theorem searchPath_none (os : OS σ) (s : σ) (cmd : CStr) :
    ∀ (path : List CStr),
      (∀ d ∈ path, (d ++ ['/'] ++ cmd).length < MAXLINE ∧
        isExecutable os s (d ++ ['/'] ++ cmd) = false) →
      searchPath os s cmd path = .ok none := by
  intro path
  induction path with
  | nil => intro _; rfl
  | cons b bs ih =>
    intro h
    obtain ⟨hbfit, hb⟩ := h b (List.mem_cons_self _ _)
    simp only [searchPath]
    rw [if_neg (Nat.not_le.mpr hbfit), if_neg (by rw [hb]; exact Bool.false_ne_true)]
    exact ih (fun d hd => h d (List.mem_cons_of_mem _ hd))

theorem searchPath_some (os : OS σ) (s : σ) (cmd : CStr) :
    ∀ (path : List CStr) (p : CStr), searchPath os s cmd path = .ok (some p) →
      isExecutable os s p = true ∧ ∃ dir ∈ path, p = dir ++ ['/'] ++ cmd := by
  intro path
  induction path with
  | nil => intro p h; simp [searchPath] at h
  | cons b bs ih =>
    intro p h
    simp only [searchPath] at h
    by_cases hlong : MAXLINE ≤ (b ++ ['/'] ++ cmd).length
    · rw [if_pos hlong] at h
      simp at h
    · rw [if_neg hlong] at h
      by_cases hb : isExecutable os s (b ++ ['/'] ++ cmd) = true
      · rw [if_pos hb] at h
        simp only [Result.ok.injEq, Option.some.injEq] at h
        subst h
        exact ⟨hb, b, List.mem_cons_self _ _, rfl⟩
      · rw [if_neg hb] at h
        obtain ⟨hp, dir, hdir, hpd⟩ := ih p h
        exact ⟨hp, dir, List.mem_cons_of_mem _ hdir, hpd⟩

theorem isExecutable_regular (os : OS σ) (s : σ) (p : CStr) (h : isExecutable os s p = true) :
    ∃ st, os.stat s p = some st ∧ st.isReg = true := by
  unfold isExecutable at h
  cases hst : os.stat s p with
  | none => simp [hst] at h
  | some st =>
    refine ⟨st, rfl, ?_⟩
    cases hreg : st.isReg with
    | true => rfl
    | false => simp [hst, hreg] at h

theorem findExecutable_of_bare (os : OS σ) (s : σ) (cmd : CStr) (path : List CStr)
    (hbare : cmd.head? ≠ some '/' ∧ cmd.head? ≠ some '.') :
    findExecutable os s cmd path =
      match searchPath os s cmd path with
      | .ok (some e) => if e = [] then .ok none else .ok (some e)
      | .ok none => .ok none
      | .fatal => .fatal
      | .fault => .fault := by
  unfold findExecutable
  simp only [hbare.1, hbare.2, decide_False, Bool.or_self, Bool.false_eq_true, if_false]
  cases searchPath os s cmd path with
  | ok found =>
    cases found with
    | none => simp
    | some e => simp
  | fatal => rfl
  | fault => rfl

/-- Where the candidates fit the buffer `executable`, the search is as the
specification describes it. For a command name whose first character is
neither a slash nor a dot, `findExecutable` returns `dir/cmd` for the first
directory of the list whose candidate `isExecutable` accepts, whatever comes
later in the list, when the candidates up to that one are shorter than
`MAXLINE`; it returns NULL when every candidate is shorter than `MAXLINE`
and none is accepted; and whatever it returns is a candidate of the list
that `isExecutable` accepts and that `stat` reports as a regular file. -/
theorem findExecutable_first_match (os : OS σ) (s : σ) (cmd : CStr) (path : List CStr)
    (hbare : cmd.head? ≠ some '/' ∧ cmd.head? ≠ some '.') :
    (∀ before dir after, path = before ++ dir :: after →
      (∀ d ∈ before, (d ++ ['/'] ++ cmd).length < MAXLINE ∧
        isExecutable os s (d ++ ['/'] ++ cmd) = false) →
      (dir ++ ['/'] ++ cmd).length < MAXLINE →
      isExecutable os s (dir ++ ['/'] ++ cmd) = true →
      findExecutable os s cmd path = .ok (some (dir ++ ['/'] ++ cmd))) ∧
    ((∀ d ∈ path, (d ++ ['/'] ++ cmd).length < MAXLINE ∧
        isExecutable os s (d ++ ['/'] ++ cmd) = false) →
      findExecutable os s cmd path = .ok none) ∧
    (∀ p, findExecutable os s cmd path = .ok (some p) →
      isExecutable os s p = true ∧ (∃ dir ∈ path, p = dir ++ ['/'] ++ cmd) ∧
      ∃ st, os.stat s p = some st ∧ st.isReg = true) := by
  rw [findExecutable_of_bare os s cmd path hbare]
  refine ⟨?_, ?_, ?_⟩
  · intro before dir after hpath hbefore hfit hdir
    rw [hpath, searchPath_first os s cmd before dir after hbefore hfit hdir]
    simp
  · intro hnone
    rw [searchPath_none os s cmd path hnone]
  · intro p hp
    cases hsp : searchPath os s cmd path with
    | fatal => simp [hsp] at hp
    | fault => simp [hsp] at hp
    | ok found =>
      cases found with
      | none => simp [hsp] at hp
      | some e =>
        simp only [hsp] at hp
        split at hp
        · simp at hp
        · simp only [Result.ok.injEq, Option.some.injEq] at hp
          subst hp
          obtain ⟨hex, hdir⟩ := searchPath_some os s cmd path e hsp
          exact ⟨hex, hdir, isExecutable_regular os s e hex⟩

/-- C4 (what the code does): for a command name whose first character is
neither a slash nor a dot, when the search reaches a directory whose
candidate `dir/cmd` has `MAXLINE` characters or more (the candidates of the
directories before it fit the buffer and are not accepted), `sprintf` writes
past the end of `executable`: `findExecutable` ends in a fault and returns
neither a path nor NULL, whatever the directories after it hold. -/
theorem findExecutable_overflow (os : OS σ) (s : σ) (cmd : CStr)
    (before : List CStr) (dir : CStr) (after : List CStr)
    (hbare : cmd.head? ≠ some '/' ∧ cmd.head? ≠ some '.')
    (hbefore : ∀ d ∈ before, (d ++ ['/'] ++ cmd).length < MAXLINE ∧
      isExecutable os s (d ++ ['/'] ++ cmd) = false)
    (hlong : MAXLINE ≤ (dir ++ ['/'] ++ cmd).length) :
    findExecutable os s cmd (before ++ dir :: after) = .fault := by
  rw [findExecutable_of_bare os s cmd _ hbare,
    searchPath_overflow os s cmd before dir after hbefore hlong]

/-- C5 (amended): for a command name whose first character is a slash or a
dot, `findExecutable` returns the name unchanged when `isExecutable` accepts
it and NULL otherwise, whatever the list of directories. -/
theorem findExecutable_direct (os : OS σ) (s : σ) (cmd : CStr) (path : List CStr)
    (hdirect : cmd.head? = some '/' ∨ cmd.head? = some '.') :
    findExecutable os s cmd path = .ok (if isExecutable os s cmd then some cmd else none) := by
  have hne : cmd ≠ [] := by
    intro hnil
    subst hnil
    simp at hdirect
  have hcond : (decide (cmd.head? = some '/') || decide (cmd.head? = some '.')) = true := by
    rcases hdirect with h | h <;> simp [h]
  unfold findExecutable
  simp only [hcond, if_true]
  cases isExecutable os s cmd with
  | true => simp [hne]
  | false => simp

end PathResolver

/-- The search of `cmd` in `/opt`, which has no such program, then in
`/bin`, which has one. -/
theorem findExecutable_first_match_witness :
    findExecutable smallOS homeMachine "cmd".toList ["/opt".toList, "/bin".toList] =
      .ok (some "/bin/cmd".toList) :=
  (findExecutable_first_match smallOS homeMachine "cmd".toList ["/opt".toList, "/bin".toList]
    (by decide)).1 ["/opt".toList] "/bin".toList [] rfl (by decide) (by decide) (by decide)

set_option maxRecDepth 100000 in
/-- Witness of C4: a command name of 192 letters, which fits a line of
`MAXLINE` bytes, looked up in the default path `/bin:/usr/bin`. The
candidate in `/bin` has 197 characters and is no file; the candidate in
`/usr/bin` has 201 characters: the search ends in a fault, and so does the
line in `main`. -/
theorem findExecutable_overflow_witness :
    (List.replicate 192 'a' ++ ['\n']).length < MAXLINE ∧
    (∀ d ∈ ["/bin".toList], (d ++ ['/'] ++ List.replicate 192 'a').length < MAXLINE ∧
      isExecutable smallOS homeMachine (d ++ ['/'] ++ List.replicate 192 'a') = false) ∧
    MAXLINE ≤ ("/usr/bin".toList ++ ['/'] ++ List.replicate 192 'a').length ∧
    findExecutable smallOS homeMachine (List.replicate 192 'a')
      (["/bin".toList] ++ "/usr/bin".toList :: []) = .fault ∧
    mainStep smallOS ["/bin".toList, "/usr/bin".toList]
      { history := [], cmdNo := 1, machine := homeMachine }
      (List.replicate 192 'a' ++ ['\n']) = .fault :=
  ⟨by decide, by decide, by decide,
   findExecutable_overflow smallOS homeMachine (List.replicate 192 'a') ["/bin".toList]
     "/usr/bin".toList [] (by decide) (by decide) (by decide),
   by decide⟩

/-- C5 (counterexample): the name `sub/prog` contains a slash and is an
executable file, yet `findExecutable` does not return it unchanged and its
result depends on the list of directories: NULL with `/bin`, and
`/opt/sub/prog` with `/opt`. -/
theorem findExecutable_slash_inside :
    '/' ∈ "sub/prog".toList ∧
    isExecutable smallOS subdirMachine "sub/prog".toList = true ∧
    findExecutable smallOS subdirMachine "sub/prog".toList ["/bin".toList] = .ok none ∧
    findExecutable smallOS subdirMachine "sub/prog".toList ["/opt".toList] =
      .ok (some "/opt/sub/prog".toList) := by
  decide

/-- Witness of C5 (amended): the spec's example `./prog`, an executable file,
is returned unchanged. -/
theorem findExecutable_direct_witness :
    findExecutable smallOS subdirMachine "./prog".toList ["/bin".toList] =
      .ok (some "./prog".toList) :=
  (findExecutable_direct smallOS subdirMachine "./prog".toList ["/bin".toList]
    (Or.inr (by decide))).trans (by decide)


section Redirection

variable {σ : Type}

/-- C10 (amended): for tokens `cmd ... < T` where the tokens before `<` are
not empty and hold no redirection operator: if `T` does not exist,
`redirection` returns -1 with "Input redirection: No such file or
directory", the tokens and the machine are left as they were, and `main`
abandons the line without creating a child; if `T` exists, is readable and
is a directory, `redirection` returns 0 with the operator and `T` dropped,
and `main` goes on exactly as for the line without the last two tokens. -/
theorem redirection_input_target (os : OS σ) (path : List CStr) (s : σ)
    (before : List CStr) (target : CStr)
    (hne : before ≠ []) (hfree : ∀ b ∈ before, isRedirect b = false) :
    (pathExists os s target = false →
      redirection os s (before ++ [['<'], target]) =
        .ok { ret := -1, tokens := before ++ [['<'], target], fp := .unset,
              diag := some .inputNoSuchFile, st := s } ∧
      execute os path s (before ++ [['<'], target]) =
        .ok { status := .redirectionError, machine := s, child := none,
              diag := some .inputNoSuchFile }) ∧
    (pathExists os s target = true → readPerm os s target = true →
      isDir os s target = true →
      redirection os s (before ++ [['<'], target]) =
        .ok { ret := 0, tokens := before, fp := .unset, diag := none, st := s } ∧
      execute os path s (before ++ [['<'], target]) = execute os path s before) := by
  have hfirst := redirection_first_operator os s before [target] ['<'] hne hfree (by decide)
  simp only [if_true] at hfirst
  refine ⟨?_, ?_⟩
  · intro hmissing
    have key : redirection os s (before ++ [['<'], target]) =
        .ok { ret := -1, tokens := before ++ [['<'], target], fp := .unset,
              diag := some .inputNoSuchFile, st := s } := by
      rw [hfirst]
      simp [redirectInput, errorPath, hmissing]
    exact ⟨key, execute_of_rejected os path s _ _ _ key⟩
  · intro hexists hread hdir
    have key : redirection os s (before ++ [['<'], target]) =
        .ok { ret := 0, tokens := before, fp := .unset, diag := none, st := s } := by
      rw [hfirst]
      simp [redirectInput, errorPath, hexists, hread, hdir]
    refine ⟨key, ?_⟩
    unfold execute
    rw [key, redirection_no_operator os s before hne hfree]

end Redirection

/-- C10 (counterexample): `ls < vault` where `vault` is a directory that the
user may not read. `redirection` returns -1 with "Input redirection:
Permission denied" and `main` abandons the line; it does not return 0 and
`ls` is not run. -/
theorem redirection_unreadable_directory :
    isDir smallOS vaultMachine "vault".toList = true ∧
    redirection smallOS vaultMachine ["ls".toList, "<".toList, "vault".toList] =
      .ok { ret := -1, tokens := ["ls".toList, "<".toList, "vault".toList], fp := .unset,
            diag := some .inputPermissionDenied, st := vaultMachine } ∧
    execute smallOS ["/bin".toList] vaultMachine ["ls".toList, "<".toList, "vault".toList] =
      .ok { status := .redirectionError, machine := vaultMachine, child := none,
            diag := some .inputPermissionDenied } := by
  decide

/-- Witness of C10 (amended): `cmd < /bin`, where `/bin` is a readable
directory: the redirection is dropped and `/bin/cmd` runs without it. -/
theorem redirection_input_target_witness :
    redirection smallOS homeMachine ["cmd".toList, "<".toList, "/bin".toList] =
      .ok { ret := 0, tokens := ["cmd".toList], fp := .unset, diag := none,
            st := homeMachine } ∧
    execute smallOS ["/bin".toList] homeMachine ["cmd".toList, "<".toList, "/bin".toList] =
      execute smallOS ["/bin".toList] homeMachine ["cmd".toList] :=
  (redirection_input_target smallOS ["/bin".toList] homeMachine ["cmd".toList] "/bin".toList
    (by decide) (by decide)).2 (by decide) (by decide) (by decide)


/-! ## The command history -/

theorem consecutive_tail (a : HistoryEntry) (l : HistoryList) (h : consecutive (a :: l) = true) :
    consecutive l = true := by
  cases l with
  | nil => rfl
  | cons b rest =>
    simp only [consecutive, Bool.and_eq_true] at h
    exact h.2

theorem evict_consecutive : ∀ (h : HistoryList) (n : Nat), consecutive h = true →
    h.length ≤ n + 1 →
    List.zipWith
      (fun (e next : HistoryEntry) =>
        ({ seqNumber := e.seqNumber + 1, commandLine := next.commandLine } : HistoryEntry))
      (h.take n) h.tail = h.tail := by
  intro h
  induction h with
  | nil => intro n _ _; simp
  | cons a l ih =>
    intro n hcons hlen
    cases l with
    | nil => simp
    | cons b rest =>
      cases n with
      | zero => simp at hlen
      | succ m =>
        have hab : b.seqNumber = a.seqNumber + 1 := by
          simp only [consecutive, Bool.and_eq_true, beq_iff_eq] at hcons
          exact hcons.1
        have hrec := ih m (consecutive_tail a _ hcons) (by simpa using hlen)
        simp only [List.tail_cons] at hrec
        simp only [List.take_succ_cons, List.tail_cons, List.zipWith_cons_cons, hrec]
        congr 1
        cases b
        simp_all

theorem evictOldest_consecutive (h : HistoryList) (hlen : h.length = MAXHIST)
    (hcons : consecutive h = true) : evictOldest h = h.tail := by
  unfold evictOldest
  exact evict_consecutive h (MAXHIST - 1) hcons (by rw [hlen]; decide)

/-- C6 (amended): when the history holds exactly 20 entries whose sequence
numbers go up by one from each entry to the next, `addToCommandHistory`
leaves exactly 20 entries: the oldest is gone, the 19 others follow in their
order, each with the sequence number and text it had, and the new pair is
the last entry. -/
theorem addToCommandHistory_full (h : HistoryList) (cmdLine : CStr) (seqNo : Int)
    (hlen : h.length = MAXHIST) (hcons : consecutive h = true) :
    addToCommandHistory h cmdLine seqNo =
      h.tail ++ [{ seqNumber := seqNo, commandLine := cmdLine }] ∧
    (addToCommandHistory h cmdLine seqNo).length = MAXHIST := by
  have key : addToCommandHistory h cmdLine seqNo =
      h.tail ++ [{ seqNumber := seqNo, commandLine := cmdLine }] := by
    unfold addToCommandHistory
    rw [if_pos hlen, evictOldest_consecutive h hlen hcons]
  refine ⟨key, ?_⟩
  rw [key]
  simp [hlen, MAXHIST]

/-- C6 (counterexample): a history of 20 entries numbered 0, 2, 4, ..., 38,
entry `i` holding the text `i`. After appending, the first entry has the
number 1 and the text of the old entry numbered 2, the old entry numbered 2
is no longer found under its number, and the result is not the old history
without its oldest entry followed by the new pair. -/
theorem addToCommandHistory_renumbers :
    gappedHistory.length = MAXHIST ∧
    getCommandFromHistory gappedHistory 2 = some "1".toList ∧
    (addToCommandHistory gappedHistory "new".toList 40).head? =
      some { seqNumber := 1, commandLine := "1".toList } ∧
    getCommandFromHistory (addToCommandHistory gappedHistory "new".toList 40) 2 = none ∧
    addToCommandHistory gappedHistory "new".toList 40 ≠
      gappedHistory.tail ++ [{ seqNumber := 40, commandLine := "new".toList }] := by
  decide

/-- Witness of C6 (amended): the 20 entries numbered 0 to 19, then the
command numbered 20. -/
theorem addToCommandHistory_full_witness :
    addToCommandHistory
        ((List.range 20).map (fun (i : Nat) =>
          ({ seqNumber := (i : Int), commandLine := "ls".toList } : HistoryEntry)))
        "pwd".toList 20 =
      ((List.range 20).map (fun (i : Nat) =>
          ({ seqNumber := (i : Int), commandLine := "ls".toList } : HistoryEntry))).tail ++
        [{ seqNumber := 20, commandLine := "pwd".toList }] :=
  (addToCommandHistory_full _ "pwd".toList 20 (by decide) (by decide)).1


theorem consecutive_append (l : HistoryList) (x : HistoryEntry) (hcons : consecutive l = true)
    (hlast : ∀ e, l.getLast? = some e → e.seqNumber + 1 = x.seqNumber) :
    consecutive (l ++ [x]) = true := by
  induction l with
  | nil => rfl
  | cons a rest ih =>
    cases rest with
    | nil =>
      have := hlast a rfl
      simp [consecutive, this]
    | cons b rest2 =>
      have hab : b.seqNumber = a.seqNumber + 1 := by
        simp only [consecutive, Bool.and_eq_true, beq_iff_eq] at hcons
        exact hcons.1
      have hrec := ih (consecutive_tail a _ hcons) (fun e he => hlast e (by
        rw [List.getLast?_cons_cons]; exact he))
      simp only [List.cons_append, consecutive, Bool.and_eq_true, beq_iff_eq]
      exact ⟨hab, by simpa using hrec⟩

theorem consecutive_lt_last (l : HistoryList) (x : HistoryEntry)
    (hcons : consecutive (l ++ [x]) = true) : ∀ e ∈ l, e.seqNumber < x.seqNumber := by
  induction l with
  | nil => intro e he; simp at he
  | cons a rest ih =>
    have hrec := ih (consecutive_tail a _ hcons)
    intro e he
    cases rest with
    | nil =>
      simp only [List.cons_append, List.nil_append, consecutive, Bool.and_eq_true,
        beq_iff_eq] at hcons
      simp only [List.mem_singleton] at he
      subst he
      omega
    | cons b rest2 =>
      have hab : b.seqNumber = a.seqNumber + 1 := by
        simp only [List.cons_append, consecutive, Bool.and_eq_true, beq_iff_eq] at hcons
        exact hcons.1
      have hb := hrec b (List.mem_cons_self _ _)
      rcases List.mem_cons.mp he with rfl | he
      · omega
      · exact hrec e he

theorem getCommandFromHistory_first (before : HistoryList) (e : HistoryEntry)
    (after : HistoryList) (n : Int) (hn : e.seqNumber = n)
    (hbefore : ∀ b ∈ before, b.seqNumber ≠ n) :
    getCommandFromHistory (before ++ e :: after) n = some e.commandLine := by
  induction before with
  | nil => simp [getCommandFromHistory, hn]
  | cons b bs ih =>
    have hb : b.seqNumber ≠ n := hbefore b (List.mem_cons_self _ _)
    simp only [List.cons_append, getCommandFromHistory, hb, if_false]
    exact ih (fun x hx => hbefore x (List.mem_cons_of_mem _ hx))

/-- Appending to a full history whose numbers go up by one drops the oldest
entry and leaves the others as they are. -/
theorem addToCommandHistory_of_full (h : HistoryList) (cmdLine : CStr) (seqNo : Int)
    (hlen : h.length = MAXHIST) (hcons : consecutive h = true) :
    addToCommandHistory h cmdLine seqNo =
      h.tail ++ [{ seqNumber := seqNo, commandLine := cmdLine }] := by
  unfold addToCommandHistory
  rw [if_pos hlen, evictOldest_consecutive h hlen hcons]

/-- The state of the history that the loop of `main` keeps: the sequence
numbers go up by one and the newest entry is numbered `cmdNo - 1`. -/
theorem addToCommandHistory_window (h : HistoryList) (cmdNo : Int) (l : CStr)
    (hcons : consecutive h = true)
    (hlast : ∀ e, h.getLast? = some e → e.seqNumber + 1 = cmdNo) :
    ∃ base, addToCommandHistory h l cmdNo = base ++ [{ seqNumber := cmdNo, commandLine := l }] ∧
      consecutive (base ++ [{ seqNumber := cmdNo, commandLine := l }]) = true := by
  by_cases hlen : h.length = MAXHIST
  · refine ⟨h.tail, addToCommandHistory_of_full h l cmdNo hlen hcons, ?_⟩
    cases h with
    | nil => rfl
    | cons a rest =>
      refine consecutive_append rest _ (consecutive_tail a rest hcons) ?_
      intro e he
      apply hlast e
      cases rest with
      | nil => simp at he
      | cons b rest2 => rw [List.getLast?_cons_cons]; exact he
  · refine ⟨h, ?_, consecutive_append h _ hcons hlast⟩
    unfold addToCommandHistory
    rw [if_neg hlen]

theorem recordLines_invariant : ∀ (lines : List CStr) (h : HistoryList) (cmdNo : Int),
    consecutive h = true → (∀ e, h.getLast? = some e → e.seqNumber + 1 = cmdNo) →
    consecutive (recordLines (h, cmdNo) lines).1 = true ∧
    (∀ e, (recordLines (h, cmdNo) lines).1.getLast? = some e →
      e.seqNumber + 1 = (recordLines (h, cmdNo) lines).2) ∧
    (recordLines (h, cmdNo) lines).2 = cmdNo + lines.length := by
  intro lines
  induction lines with
  | nil => intro h cmdNo hcons hlast; exact ⟨hcons, hlast, by simp [recordLines]⟩
  | cons l ls ih =>
    intro h cmdNo hcons hlast
    obtain ⟨base, hadd, hc⟩ := addToCommandHistory_window h cmdNo l hcons hlast
    have hrec := ih (addToCommandHistory h l cmdNo) (cmdNo + 1) (by rw [hadd]; exact hc)
      (by
        intro e he
        rw [hadd, List.getLast?_append_of_ne_nil _ (by simp)] at he
        simp only [List.getLast?_singleton, Option.some.injEq] at he
        subst he
        rfl)
    simp only [recordLines]
    refine ⟨hrec.1, hrec.2.1, ?_⟩
    rw [hrec.2.2]
    simp only [List.length_cons]
    push_cast
    omega

theorem recordLines_append (st : HistoryList × Int) (lines : List CStr) (l : CStr) :
    recordLines st (lines ++ [l]) =
      (addToCommandHistory (recordLines st lines).1 l (recordLines st lines).2,
       (recordLines st lines).2 + 1) := by
  induction lines generalizing st with
  | nil => obtain ⟨h, n⟩ := st; simp [recordLines]
  | cons a as ih => obtain ⟨h, n⟩ := st; simp only [List.cons_append, recordLines]; exact ih _

/-! ## History substitution -/

theorem isdigit_not_special (c : Char) (h : isdigit c = true) :
    isspace c = false ∧ c ≠ '-' ∧ c ≠ '+' ∧ c ≠ '!' ∧ c ≠ ' ' := by
  have hr : '0'.toNat ≤ c.toNat ∧ c.toNat ≤ '9'.toNat := by simpa [isdigit] using h
  have h0 : ('0' : Char).toNat = 48 := by decide
  have hne : ∀ d : Char, d.toNat < 48 → c ≠ d := by
    intro d hd hcd
    subst hcd
    omega
  refine ⟨?_, hne _ (by decide), hne _ (by decide), hne _ (by decide), hne _ (by decide)⟩
  have h1 := hne ' ' (by decide)
  have h2 := hne '\t' (by decide)
  have h3 := hne '\n' (by decide)
  have h4 := hne '\x0b' (by decide)
  have h5 := hne '\x0c' (by decide)
  have h6 := hne '\r' (by decide)
  simp [isspace, h1, h2, h3, h4, h5, h6]

theorem takeWhile_digits (ds rest : CStr) (hds : ∀ c ∈ ds, isdigit c = true)
    (hrest : ∀ c, rest.head? = some c → isdigit c = false) :
    (ds ++ rest).takeWhile isdigit = ds := by
  rw [List.takeWhile_append_of_pos hds]
  cases rest with
  | nil => simp
  | cons r rs =>
    have := hrest r rfl
    simp [List.takeWhile_cons, this]

/-- The conversion `%d` on a non-empty run of digits followed by something
that is not a digit: the value that `strtol` gives the run, converted to
`int`. -/
theorem scanInt_digits (ds rest : CStr) (hne : ds ≠ []) (hds : ∀ c ∈ ds, isdigit c = true)
    (hrest : ∀ c, rest.head? = some c → isdigit c = false) :
    scanInt (ds ++ rest) = some (wrap32 (strtol false (digitsValue ds))) := by
  cases ds with
  | nil => exact absurd rfl hne
  | cons d ds' =>
    obtain ⟨hsp, hminus, hplus, _, _⟩ := isdigit_not_special d (hds d (List.mem_cons_self _ _))
    have htake := takeWhile_digits (d :: ds') rest hds hrest
    simp only [List.cons_append] at htake
    unfold scanInt
    simp only [List.cons_append, List.dropWhile_cons, hsp, Bool.false_eq_true, if_false,
      List.head?_cons, Option.some.injEq, hminus, hplus, or_self, htake, decide_False]
    simp

theorem digitChar_isdigit : ∀ m, m < 10 →
    (isdigit (Nat.digitChar m) = true ∧ (Nat.digitChar m).toNat - '0'.toNat = m) := by
  decide

theorem digitsValue_append_singleton (ds : CStr) (c : Char) :
    digitsValue (ds ++ [c]) = 10 * digitsValue ds + (c.toNat - '0'.toNat) := by
  simp [digitsValue, List.foldl_append]

/-- With enough fuel `Nat.toDigitsCore` at base 10 puts a non-empty run of
decimal digits of value `n` in front of the accumulator. -/
theorem toDigitsCore_digits (fuel : Nat) : ∀ (n : Nat) (acc : CStr), n < fuel →
    ∃ ds : CStr, Nat.toDigitsCore 10 fuel n acc = ds ++ acc ∧ ds ≠ [] ∧
      (∀ c ∈ ds, isdigit c = true) ∧ digitsValue ds = n := by
  induction fuel with
  | zero => intro n acc h; omega
  | succ fuel ih =>
    intro n acc hn
    have hd := digitChar_isdigit (n % 10) (Nat.mod_lt _ (by decide))
    unfold Nat.toDigitsCore
    by_cases hq : n / 10 = 0
    · refine ⟨[Nat.digitChar (n % 10)], by simp [hq], by simp, by simpa using hd.1, ?_⟩
      simp only [digitsValue, List.foldl_cons, List.foldl_nil, hd.2]
      omega
    · have hlt : n / 10 < fuel := by omega
      obtain ⟨ds, heq, hne, hdig, hval⟩ := ih (n / 10) (Nat.digitChar (n % 10) :: acc) hlt
      refine ⟨ds ++ [Nat.digitChar (n % 10)], by simp [hq, heq], by simp, ?_, ?_⟩
      · intro c hc
        rcases List.mem_append.mp hc with hc | hc
        · exact hdig c hc
        · simp only [List.mem_singleton] at hc
          subst hc
          exact hd.1
      · rw [digitsValue_append_singleton, hval, hd.2]
        omega

theorem toDigits_digits (n : Nat) :
    Nat.toDigits 10 n ≠ [] ∧ (∀ c ∈ Nat.toDigits 10 n, isdigit c = true) ∧
      digitsValue (Nat.toDigits 10 n) = n := by
  obtain ⟨ds, heq, hne, hdig, hval⟩ := toDigitsCore_digits (n + 1) n [] (Nat.lt_succ_self n)
  have : Nat.toDigits 10 n = ds := by
    unfold Nat.toDigits
    rw [heq]
    simp
  rw [this]
  exact ⟨hne, hdig, hval⟩

theorem wrap32_of_small (n : Nat) (h : n < 2 ^ 31) : wrap32 (n : Int) = (n : Int) := by
  unfold wrap32
  have h1 : (n : Int) < 2 ^ 31 := by exact_mod_cast h
  have h2 : (0 : Int) ≤ n := Int.natCast_nonneg n
  norm_num at h1 ⊢
  omega

/-- A number below `2^31` is stored by the conversion `%d` as it is. -/
theorem strtol_of_small (n : Nat) (h : n < 2 ^ 31) :
    wrap32 (strtol false n) = (n : Int) := by
  have h1 : (n : Int) < 2 ^ 31 := by exact_mod_cast h
  have hfit : ¬ LONG_MAX < (n : Int) := by
    unfold LONG_MAX
    norm_num at h1 ⊢
    omega
  unfold strtol
  simp only [Bool.false_eq_true, if_false, if_neg hfit]
  exact wrap32_of_small n h

/-- What the substitution does with a line whose second character is the
exclamation mark. -/
theorem historySubstitution_bangbang (h : HistoryList) (cmdNo : Int) (rest : CStr) :
    historySubstitution h cmdNo ('!' :: '!' :: rest) = recallCommand h (cmdNo - 1) := by
  simp [historySubstitution]

/-- What the substitution does with a line that is the exclamation mark, a
non-empty run of digits, and then something that is not a digit. -/
theorem historySubstitution_number (h : HistoryList) (cmdNo : Int) (ds rest : CStr)
    (hne : ds ≠ []) (hds : ∀ c ∈ ds, isdigit c = true)
    (hrest : ∀ c, rest.head? = some c → isdigit c = false) :
    historySubstitution h cmdNo ('!' :: (ds ++ rest)) =
      recallCommand h (wrap32 (strtol false (digitsValue ds))) := by
  have hscan := scanInt_digits ds rest hne hds hrest
  cases ds with
  | nil => exact absurd rfl hne
  | cons d ds' =>
    obtain ⟨_, _, _, hbang, hblank⟩ := isdigit_not_special d (hds d (List.mem_cons_self _ _))
    simp only [List.cons_append] at hscan
    simp [historySubstitution, sscanfBang, hscan, hbang, hblank]

/-- C7 (amended): (1) when the loop of `main` starts with a history whose
sequence numbers go up by one and whose newest entry is numbered
`cmdNo - 1` (or with an empty history) and records lines, `cmdNo` is the
number of the last line recorded plus one, the entry of that number holds
the last line recorded, and a line that starts with two exclamation marks
is replaced by that last line; from an empty history and `cmdNo` 0, after
the lines numbered 0 to k, that is the text of entry k; (2) for every
number N below 2^31 written in decimal after the exclamation mark, the line
is replaced by the text of the first stored entry whose sequence number is
N, wherever it stands in the history. -/
theorem historySubstitution_recall :
    (∀ (h0 : HistoryList) (c0 : Int) (lines : List CStr) (last rest : CStr),
      consecutive h0 = true → (∀ e, h0.getLast? = some e → e.seqNumber + 1 = c0) →
      (recordLines (h0, c0) (lines ++ [last])).2 = c0 + (lines.length : Int) + 1 ∧
      getCommandFromHistory (recordLines (h0, c0) (lines ++ [last])).1
        (c0 + (lines.length : Int)) = some last ∧
      historySubstitution (recordLines (h0, c0) (lines ++ [last])).1
        (recordLines (h0, c0) (lines ++ [last])).2 ('!' :: '!' :: rest) = .replaced last) ∧
    (∀ (cmdNo : Int) (N : Nat) (before : HistoryList) (e : HistoryEntry) (after : HistoryList),
      N < 2 ^ 31 → e.seqNumber = (N : Int) → (∀ b ∈ before, b.seqNumber ≠ (N : Int)) →
      historySubstitution (before ++ e :: after) cmdNo ('!' :: Nat.toDigits 10 N) =
        .replaced e.commandLine) := by
  refine ⟨?_, ?_⟩
  · intro h0 c0 lines last rest hcons0 hlast0
    obtain ⟨hcons, hlast, hno⟩ := recordLines_invariant lines h0 c0 hcons0 hlast0
    obtain ⟨base, hadd, hc⟩ := addToCommandHistory_window (recordLines (h0, c0) lines).1
      (recordLines (h0, c0) lines).2 last hcons hlast
    have hlookup : getCommandFromHistory
        (addToCommandHistory (recordLines (h0, c0) lines).1 last (recordLines (h0, c0) lines).2)
        (c0 + (lines.length : Int)) = some last := by
      rw [hadd]
      have hlt := consecutive_lt_last base _ hc
      have := getCommandFromHistory_first base
        { seqNumber := (recordLines (h0, c0) lines).2, commandLine := last } []
        (c0 + (lines.length : Int)) hno (by
          intro b hb
          have := hlt b hb
          simp only at this
          omega)
      simpa using this
    rw [recordLines_append]
    refine ⟨by simp [hno], hlookup, ?_⟩
    rw [historySubstitution_bangbang]
    simp only [hno, add_sub_cancel_right, recallCommand]
    rw [hno] at hlookup
    rw [hlookup]
  · intro cmdNo N before e after hN he hbefore
    obtain ⟨hne, hdig, hval⟩ := toDigits_digits N
    have := historySubstitution_number (before ++ e :: after) cmdNo (Nat.toDigits 10 N) []
      hne hdig (by simp)
    rw [List.append_nil] at this
    rw [this, hval, strtol_of_small N hN, recallCommand,
      getCommandFromHistory_first before e after (N : Int) he hbefore]

/-- C7 (counterexample): the history holds the entry numbered 0, `pwd`, and
`cmdNo` is 1. The shell reads `h`, which it records as entry 1: the entries
0 to k = 1 have been appended. The line `!!` is then replaced by `h`, the
text of entry 1, not by `pwd`, the text of entry k - 1 = 0, and `h` is
recorded again as entry 2. -/
theorem bangbang_is_newest_entry :
    mainStep smallOS ["/bin".toList]
        { history := [{ seqNumber := 0, commandLine := "pwd".toList }], cmdNo := 1,
          machine := homeMachine }
        "h\n".toList =
      .ok { outcome := .recorded,
            shell := { history := [{ seqNumber := 0, commandLine := "pwd".toList },
                                   { seqNumber := 1, commandLine := "h".toList }],
                       cmdNo := 2, machine := homeMachine },
            child := none } ∧
    mainStep smallOS ["/bin".toList]
        { history := [{ seqNumber := 0, commandLine := "pwd".toList },
                      { seqNumber := 1, commandLine := "h".toList }],
          cmdNo := 2, machine := homeMachine }
        "!!\n".toList =
      .ok { outcome := .recorded,
            shell := { history := [{ seqNumber := 0, commandLine := "pwd".toList },
                                   { seqNumber := 1, commandLine := "h".toList },
                                   { seqNumber := 2, commandLine := "h".toList }],
                       cmdNo := 3, machine := homeMachine },
            child := none } ∧
    recordLines ([], 0) ["pwd".toList, "h".toList] =
      ([{ seqNumber := 0, commandLine := "pwd".toList },
        { seqNumber := 1, commandLine := "h".toList }], 2) ∧
    getCommandFromHistory (recordLines ([], 0) ["pwd".toList, "h".toList]).1 (1 - 1) =
      some "pwd".toList ∧
    historySubstitution (recordLines ([], 0) ["pwd".toList, "h".toList]).1
        (recordLines ([], 0) ["pwd".toList, "h".toList]).2 "!!".toList =
      .replaced "h".toList ∧
    "h".toList ≠ "pwd".toList := by
  decide

/-- Witness of C7 (amended): from an empty history and `cmdNo` 0, after `pwd`
and `h` the line `!!` is replaced by `h`; and `!3` is replaced by the text
of the entry numbered 3, which stands second in the history. -/
theorem historySubstitution_recall_witness :
    historySubstitution (recordLines ([], 0) (["pwd".toList] ++ ["h".toList])).1
        (recordLines ([], 0) (["pwd".toList] ++ ["h".toList])).2 ('!' :: '!' :: []) =
      .replaced "h".toList ∧
    historySubstitution
        ([{ seqNumber := 7, commandLine := "ls".toList }] ++
          { seqNumber := 3, commandLine := "pwd".toList } ::
          [{ seqNumber := 5, commandLine := "h".toList }])
        9 ('!' :: Nat.toDigits 10 3) = .replaced "pwd".toList :=
  ⟨(historySubstitution_recall.1 [] 0 ["pwd".toList] "h".toList [] rfl (by simp)).2.2,
   historySubstitution_recall.2 9 3 [{ seqNumber := 7, commandLine := "ls".toList }]
    { seqNumber := 3, commandLine := "pwd".toList } [{ seqNumber := 5, commandLine := "h".toList }]
    (by decide) rfl (by decide)⟩

/-- C8 (amended): a line that starts with the exclamation mark is rejected
as an invalid history substitution exactly when its second character is a
blank, or its second character is not the exclamation mark and the `%d`
conversion finds no number after the first character. So (a) the lone
exclamation mark, (b) the exclamation mark followed by a blank, and (c) the
exclamation mark followed by a character that is not a digit, an
exclamation mark, a sign or white space are rejected; (d) two exclamation
marks, whatever follows, refer to the command numbered `cmdNo - 1`; (e) the
exclamation mark and a run of digits of a value below 2^31, whatever
non-digit follows, refer to the command of that number. -/
theorem historySubstitution_forms (h : HistoryList) (cmdNo : Int) :
    (∀ rest : CStr, historySubstitution h cmdNo ('!' :: rest) = .invalid ↔
      (rest.head? = some ' ' ∨ (rest.head? ≠ some '!' ∧ scanInt rest = none))) ∧
    historySubstitution h cmdNo ['!'] = .invalid ∧
    (∀ rest : CStr, historySubstitution h cmdNo ('!' :: ' ' :: rest) = .invalid) ∧
    (∀ (c : Char) (rest : CStr), c ≠ '!' → isdigit c = false → isspace c = false →
      c ≠ '+' → c ≠ '-' → historySubstitution h cmdNo ('!' :: c :: rest) = .invalid) ∧
    (∀ rest : CStr,
      historySubstitution h cmdNo ('!' :: '!' :: rest) = recallCommand h (cmdNo - 1)) ∧
    (∀ ds rest : CStr, ds ≠ [] → (∀ c ∈ ds, isdigit c = true) →
      (∀ c, rest.head? = some c → isdigit c = false) → digitsValue ds < 2 ^ 31 →
      historySubstitution h cmdNo ('!' :: (ds ++ rest)) =
        recallCommand h (digitsValue ds : Int)) := by
  have hrecall : ∀ n, recallCommand h n ≠ .invalid := by
    intro n
    unfold recallCommand
    cases getCommandFromHistory h n <;> simp
  have hiff : ∀ rest : CStr, historySubstitution h cmdNo ('!' :: rest) = .invalid ↔
      (rest.head? = some ' ' ∨ (rest.head? ≠ some '!' ∧ scanInt rest = none)) := by
    intro rest
    cases rest with
    | nil => simp [historySubstitution, sscanfBang, scanInt]
    | cons c cs =>
      by_cases hblank : c = ' '
      · subst hblank
        simp [historySubstitution]
      · by_cases hbang : c = '!'
        · subst hbang
          rw [historySubstitution_bangbang]
          simp [hrecall]
        · cases hscan : scanInt (c :: cs) with
          | none => simp [historySubstitution, sscanfBang, hscan, hbang, hblank]
          | some v => simp [historySubstitution, sscanfBang, hscan, hbang, hblank, hrecall]
  refine ⟨hiff, ?_, ?_, ?_, historySubstitution_bangbang h cmdNo, ?_⟩
  rotate_right
  · intro ds rest hne hds hrest hsmall
    rw [historySubstitution_number h cmdNo ds rest hne hds hrest,
      strtol_of_small (digitsValue ds) hsmall]
  · exact (hiff []).2 (Or.inr ⟨by simp, by simp [scanInt]⟩)
  · intro rest
    exact (hiff (' ' :: rest)).2 (Or.inl rfl)
  · intro c rest hbang hdigit hspace hplus hminus
    refine (hiff (c :: rest)).2 (Or.inr ⟨by simpa using hbang, ?_⟩)
    simp [scanInt, List.dropWhile_cons, List.takeWhile_cons, hspace, hdigit, hplus, hminus]

/-- C8 (counterexample): in `!+5` the character after the exclamation mark is
a plus sign, neither a digit nor an exclamation mark, yet the line is taken
as a reference to command 5 and replaced by its text; `!-5` is taken as a
reference to command -5. -/
theorem historySubstitution_accepts_sign :
    isdigit '+' = false ∧ '+' ≠ '!' ∧
    historySubstitution [{ seqNumber := 5, commandLine := "ls".toList }] 6 "!+5".toList =
      .replaced "ls".toList ∧
    historySubstitution [{ seqNumber := 5, commandLine := "ls".toList }] 6 "!-5".toList =
      .noCommand (-5) := by
  decide

/-- Witness of C8 (amended): `!x` is rejected; `!12abc` refers to command
12. -/
theorem historySubstitution_forms_witness :
    historySubstitution [{ seqNumber := 12, commandLine := "ls".toList }] 13 "!x".toList =
      .invalid ∧
    historySubstitution [{ seqNumber := 12, commandLine := "ls".toList }] 13
        ('!' :: ("12".toList ++ "abc".toList)) =
      recallCommand [{ seqNumber := 12, commandLine := "ls".toList }]
        (digitsValue "12".toList : Int) :=
  ⟨(historySubstitution_forms [{ seqNumber := 12, commandLine := "ls".toList }] 13).2.2.2.1
      'x' [] (by decide) (by decide) (by decide) (by decide) (by decide),
   (historySubstitution_forms [{ seqNumber := 12, commandLine := "ls".toList }] 13).2.2.2.2.2
      "12".toList "abc".toList (by decide) (by decide) (by decide) (by decide)⟩

/-- A number that does not fit an `int`: for the line `!18446744073709551621`
the conversion stores -1 (the value `LONG_MAX` of `strtol`, converted to
`int`), and the shell answers that there is no command -1, although the
history holds the entry 5 = 18446744073709551621 - 2^64. -/
theorem historySubstitution_out_of_range :
    historySubstitution [{ seqNumber := 5, commandLine := "ls".toList }] 6
      "!18446744073709551621".toList = .noCommand (-1) := by
  decide


/-! ## One line of the main loop -/

section MainLoop

variable {σ : Type}

theorem redirectInput_state (os : OS σ) (s : σ) (tokens before : List CStr) (target : CStr)
    (r : Redirected σ) (h : redirectInput os s tokens before target = .ok r) : r.st = s := by
  unfold redirectInput at h
  cases he : errorPath os s '<' target with
  | fatal => simp [he] at h
  | fault => simp [he] at h
  | ok p =>
    obtain ⟨e, d⟩ := p
    simp only [he] at h
    split at h
    · simp only [Result.ok.injEq] at h; subst h; rfl
    · split at h
      · simp only [Result.ok.injEq] at h; subst h; rfl
      · simp only [Result.ok.injEq] at h; subst h; rfl

theorem redirectOutput_state (os : OS σ) (s : σ) (tokens before : List CStr) (target : CStr)
    (r : Redirected σ) (h : redirectOutput os s tokens before target = .ok r) :
    r.st = s ∨ (r.ret = 2 ∧ os.fopenW s target = some r.st) := by
  unfold redirectOutput at h
  split at h
  · simp only [Result.ok.injEq] at h; subst h; exact Or.inl rfl
  · cases hw : os.fopenW s target with
    | some s' =>
      simp only [hw, Result.ok.injEq] at h
      subst h
      exact Or.inr ⟨rfl, rfl⟩
    | none =>
      simp only [hw] at h
      cases he : errorPath os s '>' target with
      | fatal => simp [he] at h
      | fault => simp [he] at h
      | ok p =>
        obtain ⟨e, d⟩ := p
        simp only [he] at h
        split at h
        · simp only [Result.ok.injEq] at h; subst h; exact Or.inl rfl
        · simp only [Result.ok.injEq] at h; subst h; exact Or.inl rfl

theorem redirectionLoop_state (os : OS σ) (s : σ) (tokens : List CStr) :
    ∀ (rest before : List CStr) (r : Redirected σ),
      redirectionLoop os s tokens before rest = .ok r →
      r.st = s ∨ (r.ret = 2 ∧ ∃ target, os.fopenW s target = some r.st) := by
  intro rest
  induction rest with
  | nil =>
    intro before r h
    simp only [redirectionLoop, Result.ok.injEq] at h
    subst h
    exact Or.inl rfl
  | cons t after ih =>
    intro before r h
    by_cases ht : isRedirect t = true
    · simp only [redirectionLoop, ht, if_true] at h
      match after, h with
      | [], h => simp only [Result.ok.injEq] at h; subst h; exact Or.inl rfl
      | _ :: _ :: _, h => simp only [Result.ok.injEq] at h; subst h; exact Or.inl rfl
      | [target], h =>
        simp only at h
        split at h
        · exact Or.inl (redirectInput_state os s tokens before target r h)
        · rcases redirectOutput_state os s tokens before target r h with h1 | ⟨h1, h2⟩
          · exact Or.inl h1
          · exact Or.inr ⟨h1, target, h2⟩
    · simp only [redirectionLoop, ht, Bool.false_eq_true, if_false] at h
      exact ih _ r h

/-- The machine after `redirection`: as before, unless the call returned 2
after `fopen` opened the target for writing. -/
theorem redirection_state (os : OS σ) (s : σ) (tokens : List CStr) (r : Redirected σ)
    (h : redirection os s tokens = .ok r) :
    r.st = s ∨ (r.ret = 2 ∧ ∃ target, os.fopenW s target = some r.st) := by
  unfold redirection at h
  cases tokens with
  | nil => simp at h
  | cons t0 rest =>
    simp only at h
    split at h
    · simp only [Result.ok.injEq] at h; subst h; exact Or.inl rfl
    · exact redirectionLoop_state os s _ rest [t0] r h

/-- What the block `if (!built_in) ...` leaves when it does not run a
child. -/
theorem execute_aborted (os : OS σ) (path : List CStr) (s : σ) (tokens : List CStr)
    (e : Executed σ) (h : execute os path s tokens = .ok e) :
    (e.status = .redirectionError → e.machine = s ∧ e.child = none) ∧
    (e.status = .commandNotFound → e.child = none ∧
      (e.machine = s ∨ ∃ target, os.fopenW s target = some e.machine)) := by
  unfold execute at h
  cases hr : redirection os s tokens with
  | fatal => simp [hr] at h
  | fault => simp [hr] at h
  | ok r =>
    have hst := redirection_state os s tokens r hr
    simp only [hr] at h
    split at h
    · rename_i hneg
      simp only [Result.ok.injEq] at h
      subst h
      refine ⟨fun _ => ⟨?_, rfl⟩, fun hc => by simp at hc⟩
      rcases hst with h1 | ⟨h1, _⟩
      · exact h1
      · omega
    · split at h
      · simp at h
      · split at h
        · simp at h
        · simp at h
        · simp only [Result.ok.injEq] at h
          subst h
          refine ⟨fun hc => by simp at hc, fun _ => ⟨rfl, ?_⟩⟩
          rcases hst with h1 | ⟨_, h2⟩
          · exact Or.inl h1
          · exact Or.inr h2
        · split at h
          · simp at h
          · split at h
            · simp at h
            · simp only [Result.ok.injEq] at h
              subst h
              exact ⟨fun hc => by simp at hc, fun hc => by simp at hc⟩

theorem cd_state (os : OS σ) (s : σ) (arg : Option CStr) (b : Int) (s1 : σ)
    (h : cd os s arg = .ok (b, s1)) : b = 3 ∨ (b = 2 ∧ s1 = s) := by
  unfold cd at h
  cases hcwd : os.getcwd s with
  | none => simp [hcwd] at h
  | some wd =>
    simp only [hcwd] at h
    split at h
    · simp at h
    · simp at h
    · split at h
      · split at h
        · simp only [Result.ok.injEq, Prod.mk.injEq] at h
          exact Or.inl h.1.symm
        · simp at h
        · simp at h
      · simp only [Result.ok.injEq, Prod.mk.injEq] at h
        exact Or.inr ⟨h.1.symm, h.2.symm⟩

/-- The value of `shellBuiltIn` is 0, 1, 2 or 3, and the machine is as before
unless the value is 3. -/
theorem shellBuiltIn_state (os : OS σ) (s : σ) (cmd : CStr) (arg : Option CStr) (b : Int)
    (s1 : σ) (h : shellBuiltIn os s cmd arg = .ok (b, s1)) :
    b = 3 ∨ ((b = 0 ∨ b = 1 ∨ b = 2) ∧ s1 = s) := by
  unfold shellBuiltIn at h
  split at h
  · simp only [Result.ok.injEq, Prod.mk.injEq] at h
    exact Or.inr ⟨Or.inr (Or.inl h.1.symm), h.2.symm⟩
  · split at h
    · simp only [Result.ok.injEq, Prod.mk.injEq] at h
      exact Or.inl h.1.symm
    · split at h
      · split at h
        · simp only [Result.ok.injEq, Prod.mk.injEq] at h
          exact Or.inl h.1.symm
        · simp at h
        · simp at h
      · split at h
        · rcases cd_state os s arg b s1 h with h3 | ⟨h2, hs⟩
          · exact Or.inl h3
          · exact Or.inr ⟨Or.inr (Or.inr h2), hs⟩
        · simp only [Result.ok.injEq, Prod.mk.injEq] at h
          exact Or.inr ⟨Or.inl h.1.symm, h.2.symm⟩

/-- The outcomes of a line that `main` abandons with `continue` after a
diagnostic. -/
theorem runLine_aborted (os : OS σ) (path : List CStr) (sh : Shell σ) (ln : CStr)
    (r : Step σ) (h : runLine os path sh ln = .ok r) :
    (r.outcome = .recorded ∨ r.outcome = .exit ∨
      (r.shell.history = sh.history ∧ r.shell.cmdNo = sh.cmdNo ∧ r.child = none ∧
        (r.outcome = .cdFailed ∨ r.outcome = .redirectionError ∨
          r.outcome = .commandNotFound) ∧
        (r.outcome ≠ .commandNotFound → r.shell.machine = sh.machine) ∧
        (r.shell.machine = sh.machine ∨
          ∃ target, os.fopenW sh.machine target = some r.shell.machine))) := by
  unfold runLine at h
  split at h
  · simp at h
  · simp at h
  · split at h
    · simp at h
    · simp at h
    · split at h
      · simp at h
      · split at h
        · simp at h
        · simp at h
        · rename_i built_in s1 hb
          have hbs := shellBuiltIn_state os sh.machine _ _ built_in s1 hb
          split at h
          · simp only [Result.ok.injEq] at h
            subst h
            exact Or.inr (Or.inl rfl)
          · split at h
            · rename_i h2
              simp only [Result.ok.injEq] at h
              subst h
              have hs1 : s1 = sh.machine := by
                rcases hbs with h3 | ⟨_, hs⟩
                · omega
                · exact hs
              refine Or.inr (Or.inr ⟨rfl, rfl, rfl, Or.inl rfl, fun _ => hs1, Or.inl hs1⟩)
            · split at h
              · rename_i h0
                have hs1 : s1 = sh.machine := by
                  rcases hbs with h3 | ⟨_, hs⟩
                  · omega
                  · exact hs
                subst hs1
                split at h
                · simp at h
                · simp at h
                · rename_i e he
                  have hab := execute_aborted os path sh.machine _ e he
                  split at h
                  · rename_i hstat
                    simp only [Result.ok.injEq] at h
                    subst h
                    have := (hab.1 hstat).1
                    exact Or.inr (Or.inr ⟨rfl, rfl, rfl, Or.inr (Or.inl rfl), fun _ => this,
                      Or.inl this⟩)
                  · rename_i hstat
                    simp only [Result.ok.injEq] at h
                    subst h
                    exact Or.inr (Or.inr ⟨rfl, rfl, rfl, Or.inr (Or.inr rfl),
                      fun hc => absurd rfl hc, (hab.2 hstat).2⟩)
                  · simp only [Result.ok.injEq] at h
                    subst h
                    exact Or.inl rfl
              · simp only [Result.ok.injEq] at h
                subst h
                exact Or.inl rfl

/-- C9 (amended): when one iteration of the loop of `main` ends in a
line-aborting outcome (invalid history substitution, unknown history
number, redirection error, command not found, `cd` failure), nothing is
appended to the history, `cmdNo` is not advanced and no child is created;
and the machine is left as it was, so that no file has been created or
truncated, unless the outcome is command not found. In that case the
machine is as it was or is the state that a successful `fopen(target, "w")`
of the redirection resolver has left. -/
theorem aborted_line_leaves_shell (os : OS σ) (path : List CStr) (sh : Shell σ) (raw : CStr)
    (r : Step σ) (h : mainStep os path sh raw = .ok r)
    (habort : r.outcome = .invalidSubstitution ∨ (∃ n, r.outcome = .noCommand n) ∨
      r.outcome = .redirectionError ∨ r.outcome = .commandNotFound ∨ r.outcome = .cdFailed) :
    r.shell.history = sh.history ∧ r.shell.cmdNo = sh.cmdNo ∧ r.child = none ∧
    (r.outcome ≠ .commandNotFound → r.shell.machine = sh.machine) ∧
    (r.shell.machine = sh.machine ∨
      ∃ target, os.fopenW sh.machine target = some r.shell.machine) := by
  have hrun : ∀ ln, runLine os path sh ln = .ok r →
      r.shell.history = sh.history ∧ r.shell.cmdNo = sh.cmdNo ∧ r.child = none ∧
      (r.outcome ≠ .commandNotFound → r.shell.machine = sh.machine) ∧
      (r.shell.machine = sh.machine ∨
        ∃ target, os.fopenW sh.machine target = some r.shell.machine) := by
    intro ln hln
    rcases runLine_aborted os path sh ln r hln with hrec | hexit | ⟨h1, h2, h3, _, h5, h6⟩
    · rw [hrec] at habort
      simp at habort
    · rw [hexit] at habort
      simp at habort
    · exact ⟨h1, h2, h3, h5, h6⟩
  unfold mainStep at h
  simp only at h
  split at h
  · simp only [Result.ok.injEq] at h
    subst h
    simp at habort
  · split at h
    · split at h
      · simp only [Result.ok.injEq] at h
        subst h
        exact ⟨rfl, rfl, rfl, fun _ => rfl, Or.inl rfl⟩
      · simp only [Result.ok.injEq] at h
        subst h
        exact ⟨rfl, rfl, rfl, fun _ => rfl, Or.inl rfl⟩
      · exact hrun _ h
    · exact hrun _ h

end MainLoop


/-- C9 (counterexample): the line `nosuch > out.txt`, where no program
`nosuch` exists. The loop ends in "Command not found", yet `out.txt` has
been created; and with `notes.txt`, an existing file of 7 bytes, as the
target, the file has been truncated to 0 bytes. -/
theorem command_not_found_after_redirection :
    mainStep smallOS ["/bin".toList] { history := [], cmdNo := 0, machine := homeMachine }
        "nosuch > out.txt\n".toList =
      .ok { outcome := .commandNotFound,
            shell := { history := [], cmdNo := 0,
                       machine := { homeMachine with
                                    nodes := homeMachine.nodes ++ [createdNode "out.txt"] } },
            child := none } ∧
    homeMachine.lookup "out.txt".toList = none ∧
    (∃ r, mainStep smallOS ["/bin".toList] { history := [], cmdNo := 0, machine := notesMachine }
        "nosuch > notes.txt\n".toList = .ok r ∧ r.outcome = .commandNotFound ∧
      (notesMachine.lookup "notes.txt".toList).map Node.size = some 7 ∧
      (r.shell.machine.lookup "notes.txt".toList).map Node.size = some 0) := by
  refine ⟨by decide, by decide, ?_⟩
  refine ⟨{ outcome := .commandNotFound,
            shell := { history := [], cmdNo := 0,
                       machine := { notesMachine with
                         nodes := notesMachine.nodes.map (fun x =>
                           if x.path = "notes.txt".toList then { x with size := 0 } else x) } },
            child := none }, by decide, rfl, by decide, by decide⟩

/-- Witness of C9 (amended): the line `cd nowhere` in a home directory that
has no such directory ends in the `cd` failure and leaves the shell as it
was. -/
theorem aborted_line_leaves_shell_witness :
    mainStep smallOS ["/bin".toList]
        { history := [{ seqNumber := 0, commandLine := "pwd".toList }], cmdNo := 1,
          machine := homeMachine }
        "cd nowhere\n".toList =
      .ok { outcome := .cdFailed,
            shell := { history := [{ seqNumber := 0, commandLine := "pwd".toList }], cmdNo := 1,
                       machine := homeMachine },
            child := none } ∧
    (({ outcome := .cdFailed,
        shell := { history := [{ seqNumber := 0, commandLine := "pwd".toList }], cmdNo := 1,
                   machine := homeMachine },
        child := none } : Step Machine).shell.machine = homeMachine) :=
  ⟨by decide,
   (aborted_line_leaves_shell smallOS ["/bin".toList]
      { history := [{ seqNumber := 0, commandLine := "pwd".toList }], cmdNo := 1,
        machine := homeMachine }
      "cd nowhere\n".toList
      { outcome := .cdFailed,
        shell := { history := [{ seqNumber := 0, commandLine := "pwd".toList }], cmdNo := 1,
                   machine := homeMachine },
        child := none }
      (by decide) (Or.inr (Or.inr (Or.inr (Or.inr rfl))))).2.2.2.1 (by decide)⟩


/-! ## Strings without a token -/

/-- C11 (what the code does): for every separator set, on the empty string
and on every string made only of separator characters the first `strtok`
returns NULL and `tokenise` hands it to `strdup`: the call ends in a fault
and no token array, empty or not, is returned. -/
theorem tokenise_fault_of_separators (s sep : CStr) (h : ∀ c ∈ s, c ∈ sep) :
    tokenise s sep = .fault := by
  have hdrop : s.dropWhile (inSet sep) = [] := by
    rw [List.dropWhile_eq_nil_iff]
    intro c hc
    simpa [inSet] using h c hc
  simp [tokenise, strtok, hdrop]

/-- Witness of C11: `tokenise` on the empty string with the colon as
separator, which is what `main` does at start-up when the variable `PATH` is
set to the empty string, on three colons, and on a string of three blanks
with the blank as separator, ends in a fault. -/
theorem tokenise_without_token_faults :
    (∀ c ∈ "   ".toList, c ∈ [' ']) ∧
    tokenise "   ".toList [' '] = .fault ∧
    tokenise [] [':'] = .fault ∧
    commandPath (some []) = .fault ∧
    tokenise ":::".toList [':'] = .fault :=
  ⟨by decide, tokenise_fault_of_separators "   ".toList [' '] (by decide),
   tokenise_fault_of_separators [] [':'] (by decide), by decide,
   tokenise_fault_of_separators ":::".toList [':'] (by decide)⟩


/-! ## The history across the main loop -/

theorem consecutive_head_lt (a : HistoryEntry) (rest : HistoryList)
    (hcons : consecutive (a :: rest) = true) : ∀ b ∈ rest, a.seqNumber < b.seqNumber := by
  induction rest generalizing a with
  | nil => intro b hb; simp at hb
  | cons b0 rest2 ih =>
    have hab : b0.seqNumber = a.seqNumber + 1 := by
      simp only [consecutive, Bool.and_eq_true, beq_iff_eq] at hcons
      exact hcons.1
    have hrec := ih b0 (consecutive_tail a _ hcons)
    intro b hb
    rcases List.mem_cons.mp hb with rfl | hb
    · omega
    · have := hrec b hb
      omega

/-- In a history whose numbers go up by one every entry is found under its
own number, with its own text. -/
theorem consecutive_lookup (h : HistoryList) (hcons : consecutive h = true) :
    ∀ e ∈ h, getCommandFromHistory h e.seqNumber = some e.commandLine := by
  induction h with
  | nil => intro e he; simp at he
  | cons a rest ih =>
    intro e he
    rcases List.mem_cons.mp he with rfl | he
    · simp [getCommandFromHistory]
    · have hlt := consecutive_head_lt a rest hcons e he
      have hne : a.seqNumber ≠ e.seqNumber := by omega
      simp only [getCommandFromHistory, hne, if_false]
      exact ih (consecutive_tail a rest hcons) e he

theorem consecutive_le_newest (h : HistoryList) (x : HistoryEntry)
    (hcons : consecutive h = true) (hlast : h.getLast? = some x) :
    ∀ e ∈ h, e.seqNumber ≤ x.seqNumber := by
  induction h with
  | nil => intro e he; simp at he
  | cons a rest ih =>
    cases rest with
    | nil =>
      intro e he
      simp only [List.getLast?_singleton, Option.some.injEq] at hlast
      simp only [List.mem_singleton] at he
      subst he hlast
      exact le_refl _
    | cons b rest2 =>
      rw [List.getLast?_cons_cons] at hlast
      have hrec := ih (consecutive_tail a _ hcons) hlast
      have hab := consecutive_head_lt a _ hcons b (List.mem_cons_self _ _)
      have hb := hrec b (List.mem_cons_self _ _)
      intro e he
      rcases List.mem_cons.mp he with rfl | he
      · omega
      · exact hrec e he

theorem getCommandFromHistory_some (h : HistoryList) (n : Int) (t : CStr)
    (hfound : getCommandFromHistory h n = some t) :
    ∃ e ∈ h, e.seqNumber = n ∧ e.commandLine = t := by
  induction h with
  | nil => simp [getCommandFromHistory] at hfound
  | cons a rest ih =>
    by_cases ha : a.seqNumber = n
    · simp only [getCommandFromHistory, ha, if_true, Option.some.injEq] at hfound
      exact ⟨a, List.mem_cons_self _ _, ha, hfound⟩
    · simp only [getCommandFromHistory, ha, if_false] at hfound
      obtain ⟨e, he, hn, ht⟩ := ih hfound
      exact ⟨e, List.mem_cons_of_mem _ he, hn, ht⟩

/-- What `addToCommandHistory` does to a history of at most `MAXHIST`
entries whose numbers go up by one and end at `cmdNo - 1`: the result has at
most `MAXHIST` entries, its numbers go up by one and end at `cmdNo`, and
each of its entries is an entry of the old history or the new pair. -/
theorem addToCommandHistory_keeps (h : HistoryList) (cmdNo : Int) (l : CStr)
    (hlen : h.length ≤ MAXHIST) (hcons : consecutive h = true)
    (hlast : ∀ e, h.getLast? = some e → e.seqNumber + 1 = cmdNo) :
    (addToCommandHistory h l cmdNo).length ≤ MAXHIST ∧
    consecutive (addToCommandHistory h l cmdNo) = true ∧
    (addToCommandHistory h l cmdNo).getLast? = some { seqNumber := cmdNo, commandLine := l } ∧
    (∀ e ∈ addToCommandHistory h l cmdNo,
      e ∈ h ∨ e = { seqNumber := cmdNo, commandLine := l }) := by
  obtain ⟨base, hadd, hc⟩ := addToCommandHistory_window h cmdNo l hcons hlast
  have hbase : base = h.tail ∨ base = h := by
    by_cases hfull : h.length = MAXHIST
    · left
      have := addToCommandHistory_of_full h l cmdNo hfull hcons
      rw [hadd] at this
      exact List.append_cancel_right this
    · right
      have : addToCommandHistory h l cmdNo = h ++ [{ seqNumber := cmdNo, commandLine := l }] := by
        unfold addToCommandHistory
        rw [if_neg hfull]
      rw [hadd] at this
      exact List.append_cancel_right this
  have hbaselen : base.length + 1 ≤ MAXHIST := by
    by_cases hfull : h.length = MAXHIST
    · have : base = h.tail := by
        have := addToCommandHistory_of_full h l cmdNo hfull hcons
        rw [hadd] at this
        exact List.append_cancel_right this
      rw [this, List.length_tail, hfull]
      decide
    · have : base = h := by
        have : addToCommandHistory h l cmdNo =
            h ++ [{ seqNumber := cmdNo, commandLine := l }] := by
          unfold addToCommandHistory
          rw [if_neg hfull]
        rw [hadd] at this
        exact List.append_cancel_right this
      rw [this]
      omega
  rw [hadd]
  refine ⟨by simpa using hbaselen, hc, by simp, ?_⟩
  intro e he
  rcases List.mem_append.mp he with he | he
  · left
    rcases hbase with hb | hb
    · rw [hb] at he
      exact List.mem_of_mem_tail he
    · rw [hb] at he
      exact he
  · right
    simpa using he

section MainLoop

variable {σ : Type}

/-- What one pass through the loop body does to the history and `cmdNo`:
nothing, or one call of `addToCommandHistory` with `cmdNo`, which is then
incremented. -/
theorem runLine_history (os : OS σ) (path : List CStr) (sh : Shell σ) (ln : CStr)
    (r : Step σ) (h : runLine os path sh ln = .ok r) :
    (r.shell.history = sh.history ∧ r.shell.cmdNo = sh.cmdNo) ∨
    (r.shell.history = addToCommandHistory sh.history ln sh.cmdNo ∧
      r.shell.cmdNo = sh.cmdNo + 1) := by
  unfold runLine at h
  split at h
  · simp at h
  · simp at h
  · split at h
    · simp at h
    · simp at h
    · split at h
      · simp at h
      · split at h
        · simp at h
        · simp at h
        · split at h
          · simp only [Result.ok.injEq] at h
            subst h
            exact Or.inl ⟨rfl, rfl⟩
          · split at h
            · simp only [Result.ok.injEq] at h
              subst h
              exact Or.inl ⟨rfl, rfl⟩
            · split at h
              · split at h
                · simp at h
                · simp at h
                · split at h
                  · simp only [Result.ok.injEq] at h
                    subst h
                    exact Or.inl ⟨rfl, rfl⟩
                  · simp only [Result.ok.injEq] at h
                    subst h
                    exact Or.inl ⟨rfl, rfl⟩
                  · simp only [Result.ok.injEq] at h
                    subst h
                    exact Or.inr ⟨rfl, rfl⟩
              · simp only [Result.ok.injEq] at h
                subst h
                exact Or.inr ⟨rfl, rfl⟩

theorem mainStep_history (os : OS σ) (path : List CStr) (sh : Shell σ) (raw : CStr)
    (r : Step σ) (h : mainStep os path sh raw = .ok r) :
    (r.shell.history = sh.history ∧ r.shell.cmdNo = sh.cmdNo) ∨
    (∃ ln, r.shell.history = addToCommandHistory sh.history ln sh.cmdNo ∧
      r.shell.cmdNo = sh.cmdNo + 1) := by
  have hrun : ∀ ln, runLine os path sh ln = .ok r →
      (r.shell.history = sh.history ∧ r.shell.cmdNo = sh.cmdNo) ∨
      (∃ ln, r.shell.history = addToCommandHistory sh.history ln sh.cmdNo ∧
        r.shell.cmdNo = sh.cmdNo + 1) := by
    intro ln hln
    rcases runLine_history os path sh ln r hln with hsame | hadd
    · exact Or.inl hsame
    · exact Or.inr ⟨ln, hadd⟩
  unfold mainStep at h
  simp only at h
  by_cases hempty : trim raw = []
  · simp only [hempty, if_true, Result.ok.injEq] at h
    subst h
    exact Or.inl ⟨rfl, rfl⟩
  · simp only [hempty, if_false] at h
    by_cases hbang : (trim raw).head? = some '!'
    · simp only [hbang, if_true] at h
      cases hsub : historySubstitution sh.history sh.cmdNo (trim raw) with
      | invalid =>
        simp only [hsub, Result.ok.injEq] at h
        subst h
        exact Or.inl ⟨rfl, rfl⟩
      | noCommand n =>
        simp only [hsub, Result.ok.injEq] at h
        subst h
        exact Or.inl ⟨rfl, rfl⟩
      | replaced text =>
        simp only [hsub] at h
        exact hrun text h
    · simp only [hbang, if_false] at h
      exact hrun _ h

end MainLoop


section MainLoop

variable {σ : Type}

/-- One pass through the loop body keeps the shape of the history: at most
`MAXHIST` entries, numbers going up by one and ending just below `cmdNo`;
`cmdNo` does not go down, and every entry of the new history is an entry of
the old one or carries a number from the old `cmdNo` on. -/
theorem mainStep_invariant (os : OS σ) (path : List CStr) (sh : Shell σ) (raw : CStr)
    (r : Step σ) (h : mainStep os path sh raw = .ok r)
    (hlen : sh.history.length ≤ MAXHIST) (hcons : consecutive sh.history = true)
    (hlast : ∀ e, sh.history.getLast? = some e → e.seqNumber + 1 = sh.cmdNo) :
    r.shell.history.length ≤ MAXHIST ∧ consecutive r.shell.history = true ∧
    (∀ e, r.shell.history.getLast? = some e → e.seqNumber + 1 = r.shell.cmdNo) ∧
    sh.cmdNo ≤ r.shell.cmdNo ∧
    (∀ e ∈ r.shell.history,
      e ∈ sh.history ∨ (sh.cmdNo ≤ e.seqNumber ∧ e.seqNumber < r.shell.cmdNo)) := by
  rcases mainStep_history os path sh raw r h with ⟨hh, hc⟩ | ⟨ln, hh, hc⟩
  · rw [hh, hc]
    exact ⟨hlen, hcons, hlast, le_refl _, fun e he => Or.inl he⟩
  · obtain ⟨h1, h2, h3, h4⟩ := addToCommandHistory_keeps sh.history sh.cmdNo ln hlen hcons hlast
    rw [hh, hc]
    refine ⟨h1, h2, ?_, by omega, ?_⟩
    · intro e he
      rw [h3] at he
      simp only [Option.some.injEq] at he
      subst he
      rfl
    · intro e he
      rcases h4 e he with hold | hnew
      · exact Or.inl hold
      · subst hnew
        exact Or.inr ⟨le_refl _, by simp⟩

/-- The loop of `main` keeps the shape of the history, whatever the lines. -/
theorem mainLoop_invariant (os : OS σ) (path : List CStr) (lines : List CStr) :
    ∀ (sh0 sh1 : Shell σ), mainLoop os path sh0 lines = .ok sh1 →
    sh0.history.length ≤ MAXHIST → consecutive sh0.history = true →
    (∀ e, sh0.history.getLast? = some e → e.seqNumber + 1 = sh0.cmdNo) →
    sh1.history.length ≤ MAXHIST ∧ consecutive sh1.history = true ∧
    (∀ e, sh1.history.getLast? = some e → e.seqNumber + 1 = sh1.cmdNo) ∧
    sh0.cmdNo ≤ sh1.cmdNo ∧
    (∀ e ∈ sh1.history,
      e ∈ sh0.history ∨ (sh0.cmdNo ≤ e.seqNumber ∧ e.seqNumber < sh1.cmdNo)) := by
  induction lines with
  | nil =>
    intro sh0 sh1 hrun hlen hcons hlast
    simp only [mainLoop, Result.ok.injEq] at hrun
    subst hrun
    exact ⟨hlen, hcons, hlast, le_refl _, fun e he => Or.inl he⟩
  | cons raw rest ih =>
    intro sh0 sh1 hrun hlen hcons hlast
    cases hstep : mainStep os path sh0 raw with
    | fatal => simp [mainLoop, hstep] at hrun
    | fault => simp [mainLoop, hstep] at hrun
    | ok r =>
      obtain ⟨s1, s2, s3, s4, s5⟩ := mainStep_invariant os path sh0 raw r hstep hlen hcons hlast
      simp only [mainLoop, hstep] at hrun
      by_cases hexit : r.outcome = .exit
      · simp only [hexit, if_true, Result.ok.injEq] at hrun
        subst hrun
        exact ⟨s1, s2, s3, s4, s5⟩
      · simp only [hexit, if_false] at hrun
        obtain ⟨t1, t2, t3, t4, t5⟩ := ih r.shell sh1 hrun s1 s2 s3
        refine ⟨t1, t2, t3, by omega, ?_⟩
        intro e he
        rcases t5 e he with hmid | ⟨hlo, hhi⟩
        · rcases s5 e hmid with hold | ⟨hlo, hhi⟩
          · exact Or.inl hold
          · exact Or.inr ⟨hlo, by omega⟩
        · exact Or.inr ⟨by omega, hhi⟩

/-- C12: main-loop invariant on the history and `cmdNo`. Let the loop of
`main` start with a history of at most `MAXHIST` entries (the size of the
array `commands`) that is empty, or whose sequence numbers go up by one from
the oldest entry on while `cmdNo` is the last number plus one. After any
sequence of lines that the loop gets through, the history holds at most
`MAXHIST` = 20 entries, its sequence numbers still go up by one, and the
newest entry has the number `cmdNo - 1`. Hence every entry of the history is
found by `getCommandFromHistory` under its own number with its own text;
every entry is an entry of the history at the start, unchanged, or carries
one of the values that `cmdNo` has taken since; and the number of an entry
of the history at the start gives that entry's text or, once the entry has
been evicted, nothing. -/
theorem mainLoop_history_invariant (os : OS σ) (path : List CStr) (sh0 : Shell σ)
    (hcap : sh0.history.length ≤ MAXHIST)
    (hstart : sh0.history = [] ∨
      (consecutive sh0.history = true ∧
        ∀ e, sh0.history.getLast? = some e → sh0.cmdNo = e.seqNumber + 1))
    (lines : List CStr) (sh1 : Shell σ) (hrun : mainLoop os path sh0 lines = .ok sh1) :
    sh1.history.length ≤ MAXHIST ∧
    consecutive sh1.history = true ∧
    (∀ e, sh1.history.getLast? = some e → e.seqNumber = sh1.cmdNo - 1) ∧
    (∀ e ∈ sh1.history, getCommandFromHistory sh1.history e.seqNumber = some e.commandLine) ∧
    (∀ e ∈ sh1.history,
      e ∈ sh0.history ∨ (sh0.cmdNo ≤ e.seqNumber ∧ e.seqNumber < sh1.cmdNo)) ∧
    (∀ e ∈ sh0.history,
      getCommandFromHistory sh1.history e.seqNumber = some e.commandLine ∨
      getCommandFromHistory sh1.history e.seqNumber = none) := by
  have hcons : consecutive sh0.history = true := by
    rcases hstart with hnil | ⟨hc, _⟩
    · rw [hnil]; rfl
    · exact hc
  have hlast : ∀ e, sh0.history.getLast? = some e → e.seqNumber + 1 = sh0.cmdNo := by
    rcases hstart with hnil | ⟨_, hl⟩
    · intro e he
      rw [hnil] at he
      simp at he
    · intro e he
      exact (hl e he).symm
  obtain ⟨t1, t2, t3, _, t5⟩ := mainLoop_invariant os path lines sh0 sh1 hrun hcap hcons hlast
  refine ⟨t1, t2, ?_, consecutive_lookup sh1.history t2, t5, ?_⟩
  · intro e he
    have := t3 e he
    omega
  · intro e he
    cases hfound : getCommandFromHistory sh1.history e.seqNumber with
    | none => exact Or.inr rfl
    | some t =>
      left
      obtain ⟨e1, he1, hn, ht⟩ := getCommandFromHistory_some sh1.history e.seqNumber t hfound
      rcases t5 e1 he1 with hold | ⟨hlo, _⟩
      · have h0 := consecutive_lookup sh0.history hcons e he
        have h1 := consecutive_lookup sh0.history hcons e1 hold
        rw [hn, h0] at h1
        rw [← ht]
        exact h1.symm
      · exfalso
        obtain ⟨x, hx⟩ : ∃ x, sh0.history.getLast? = some x := by
          cases hh : sh0.history.getLast? with
          | none =>
            rw [List.getLast?_eq_none_iff] at hh
            rw [hh] at he
            simp at he
          | some x => exact ⟨x, rfl⟩
        have hle := consecutive_le_newest sh0.history x hcons hx e he
        have := hlast x hx
        omega

/-- Witness of C12: the shell starts with a full history numbered 1 to 20
and `cmdNo` 21 and reads the line `pwd`; the oldest entry is evicted and the
line is recorded under the number 21. -/
theorem mainLoop_history_invariant_witness :
    ((List.range 20).map (fun (i : Nat) =>
        ({ seqNumber := (i : Int) + 1, commandLine := "ls".toList } : HistoryEntry))).length
      ≤ MAXHIST ∧
    mainLoop smallOS ["/bin".toList]
        { history := (List.range 20).map (fun (i : Nat) =>
            ({ seqNumber := (i : Int) + 1, commandLine := "ls".toList } : HistoryEntry)),
          cmdNo := 21, machine := homeMachine }
        ["pwd\n".toList] =
      .ok { history := ((List.range 20).map (fun (i : Nat) =>
              ({ seqNumber := (i : Int) + 1, commandLine := "ls".toList } : HistoryEntry))).tail ++
              [{ seqNumber := 21, commandLine := "pwd".toList }],
            cmdNo := 22, machine := homeMachine } ∧
    getCommandFromHistory
        (((List.range 20).map (fun (i : Nat) =>
            ({ seqNumber := (i : Int) + 1, commandLine := "ls".toList } : HistoryEntry))).tail ++
          [{ seqNumber := 21, commandLine := "pwd".toList }]) 21 = some "pwd".toList :=
  ⟨by decide, by decide,
   (mainLoop_history_invariant smallOS ["/bin".toList]
      { history := (List.range 20).map (fun (i : Nat) =>
          ({ seqNumber := (i : Int) + 1, commandLine := "ls".toList } : HistoryEntry)),
        cmdNo := 21, machine := homeMachine }
      (by decide) (Or.inr ⟨by decide, by decide⟩)
      ["pwd\n".toList]
      { history := ((List.range 20).map (fun (i : Nat) =>
            ({ seqNumber := (i : Int) + 1, commandLine := "ls".toList } : HistoryEntry))).tail ++
            [{ seqNumber := 21, commandLine := "pwd".toList }],
        cmdNo := 22, machine := homeMachine }
      (by decide)).2.2.2.1 { seqNumber := 21, commandLine := "pwd".toList } (by decide)⟩

end MainLoop

end Mymysh
